import Mathlib

/-!
Verification of the xcheck filesystem-image checker (xcheck.c).

The program is embedded shallowly.  The disk image is abstracted at the level
of the program's own readers (rinode, rdirent, the indirect-block array, and
the raw bytes consulted by bmapval): an Img record holds the superblock fields
that main copies into globals plus total accessor functions for each kind of
read.  The two reference-count arrays become total functions Nat -> Nat; every
printf/exit(1) pair becomes a halting result carrying the diagnostic, and the
two printf sites that lack an exit(1) append to a log and continue, exactly as
the C does.  C for/while loops are written as structurally recursive countdown
loops (the first argument counts the remaining iterations, the second is the C
index variable), so that everything reduces in the kernel.  The checker state
also carries ghost trace fields (entered, counts, consulted) that record
events of the run and influence nothing; they only appear in theorem
statements.  Unbounded recursion of recurse_dir is modelled with explicit
fuel, consumed once per nested call.
-/

set_option maxRecDepth 10000

namespace XCheck

/-- Inode type tag for directories (xcheck.c line 12). -/
def T_DIR : Nat := 1

/-- Inode type tag for regular files (xcheck.c line 13). -/
def T_FILE : Nat := 2

/-- Inode type tag for devices (xcheck.c line 14). -/
def T_DEV : Nat := 3

/-- Modelled from the spec: the fixed block size of the on-disk format.  The
constant comes from the companion filesystem header fs.h, which is not part of
src/; 512 is the conventional value of that filesystem. -/
def BSIZE : Nat := 512

/-- Modelled from the spec: inodes per inode-table block (BSIZE divided by the
64-byte inode record size), from the missing header fs.h. -/
def IPB : Nat := 8

/-- Modelled from the spec: the constant number of direct addresses in an
inode record, from the missing header fs.h. -/
def NDIRECT : Nat := 12

/-- Modelled from the spec: addresses per indirect block, BSIZE / 4, from the
missing header fs.h. -/
def NINDIRECT : Nat := 128

/-- Modelled from the spec: directory entries per block.  This is the value
maxidx = BSIZE / sizeof(struct dirent) computed at xcheck.c line 175, with the
16-byte dirent of the missing header fs.h. -/
def DPB : Nat := 32

/-- Directory entry as decoded by rdirent (xcheck.c lines 324-328): an inode
number and a name. -/
structure Dirent where
  inum : Nat
  name : String
deriving DecidableEq, Repr

/-- On-disk inode record as decoded by rinode (xcheck.c lines 313-322): type
tag, link count, and the address array; slots 0 .. NDIRECT-1 are the direct
addresses and slot NDIRECT is the indirect pointer. -/
structure Dinode where
  type : Nat
  nlink : Nat
  addrs : Nat → Nat

/-- Abstract disk image.  The first five fields are the superblock fields that
main copies into globals (xcheck.c lines 60-66); inode, dirent and ind are the
record-level readers (rinode; rdirent applied to a read block; the uint array
of an indirect block); bytes gives the raw byte at a (block, offset) pair as
consulted by bmapval. -/
structure Img where
  size : Nat
  nblocks : Nat
  ninodes : Nat
  nlog : Nat
  bmapstart : Nat
  inode : Nat → Dinode
  dirent : Nat → Nat → Dirent
  ind : Nat → Nat → Nat
  bytes : Nat → Nat → Nat

/-- Diagnostic lines printed by xcheck, one constructor per distinct text.
Sites that print the same text share a constructor (for instance lines 183,
252 and 266 all print the bad-direct-address line, and lines 120 and 222 the
duplicate-directory line). -/
inductive Msg where
  | usage
  | invalidImage
  | noRoot
  | freeButRef
  | badInode
  | notFound
  | dupDir
  | badRefCount
  | bitFree
  | bitmapNotInUse
  | appDir
  | appFile
  | badDirect
  | dupAddress
  | badIndirect
  | dupIndirect
  | invalidType
  | notFmt
deriving DecidableEq, Repr

/-- Checker state: the two reference-count arrays inode_refs and block_refs
(xcheck.c line 21), the log of diagnostic lines printed without exiting, and
three ghost trace fields: entered records the inode number at each invocation
of recurse_dir that passes its type check; counts records one triple
(first-block?, slot, inode number) per executed ++inode_refs (line 219);
consulted records the address-array slot index at each bmapval consultation of
the final inode scan (lines 134 and 143).  The ghost fields affect no control
flow. -/
structure St where
  irefs : Nat → Nat
  brefs : Nat → Nat
  printed : List Msg
  entered : List Nat
  counts : List (Bool × Nat × Nat)
  consulted : List Nat

/-- Result of running a checker fragment: normal completion, a printf plus
exit(1) carrying the diagnostic, or fuel exhaustion of the modelled
recursion.  Every constructor carries the state reached. -/
inductive Res (α : Type) where
  | ok : α → St → Res α
  | halt : Msg → St → Res α
  | fuelOut : St → Res α

/-- Pointwise update of a Nat-indexed array, modelling arr[n] = v. -/
def upd (f : Nat → Nat) (n v : Nat) : Nat → Nat := fun a => if a = n then v else f a

/-- State reached by a result, whatever its kind. -/
def stOf {α : Type} : Res α → St
  | .ok _ s => s
  | .halt _ s => s
  | .fuelOut s => s

/-- Tests for normal completion, i.e. the run would go on to exit 0. -/
def isOk0 {α : Type} : Res α → Bool
  | .ok _ _ => true
  | _ => false

/-- Tests for fuel exhaustion of the modelled recursion. -/
def isFuelOut {α : Type} : Res α → Bool
  | .fuelOut _ => true
  | _ => false

/-- Tests for a halt carrying the duplicate-address diagnostic of xcheck.c
lines 256 and 271. -/
def isDupHalt {α : Type} : Res α → Bool
  | .halt .dupAddress _ => true
  | _ => false

/-- Diagnostic log of the state reached by a result. -/
def printedOf {α : Type} (r : Res α) : List Msg := (stOf r).printed

/-- Ghost trace of recurse_dir invocations of the state reached by a result. -/
def enteredOf {α : Type} (r : Res α) : List Nat := (stOf r).entered

/-- Increment of block_refs at index i, modelling ++block_refs[i]. -/
def bumpB (st : St) (i : Nat) : St :=
  { st with brefs := upd st.brefs i (st.brefs i + 1) }

/-- Increment of inode_refs at index n, modelling ++inode_refs[n] at xcheck.c
line 219, together with its ghost count record (first-block flag, slot, n). -/
def bumpI (st : St) (first : Bool) (slot n : Nat) : St :=
  { st with irefs := upd st.irefs n (st.irefs n + 1),
            counts := st.counts ++ [(first, slot, n)] }

/-- Appends a diagnostic printed without exiting. -/
def pushPrinted (st : St) (m : Msg) : St := { st with printed := st.printed ++ [m] }

/-- Ghost record of an invocation of recurse_dir on inode number n. -/
def pushEntered (st : St) (n : Nat) : St := { st with entered := st.entered ++ [n] }

/-- Ghost record of a bitmap consultation for address-array slot n during the
final inode scan. -/
def recordConsult (st : St) (n : Nat) : St := { st with consulted := st.consulted ++ [n] }

/-- State after main's memset of both reference arrays (xcheck.c lines 69-70):
all counters zero, nothing printed, empty ghost traces. -/
def initSt : St := ⟨fun _ => 0, fun _ => 0, [], [], [], []⟩

/-- Number of inode-table blocks, iblocks = ninodes / IPB + 1 (xcheck.c line
62). -/
def iblocks (img : Img) : Nat := img.ninodes / IPB + 1

/-- Number of bitmap blocks, bmapblocks = sb.size / (BSIZE*8) + 1 (xcheck.c
line 60). -/
def bmapblocks (img : Img) : Nat := img.size / (BSIZE * 8) + 1

/-- Count of metadata blocks preceding the data region, nmeta = 2 + sb.nlog +
iblocks + bmapblocks (xcheck.c line 64). -/
def nmeta (img : Img) : Nat := 2 + img.nlog + iblocks img + bmapblocks img

/-- Range check of a block pointer, check_bp (xcheck.c lines 342-344):
bp >= nmeta and bp < sb.nblocks. -/
def check_bp (img : Img) (bp : Nat) : Bool := decide (nmeta img ≤ bp ∧ bp < img.nblocks)

/-- Bitmap lookup bmapval (xcheck.c lines 330-340): computes the bitmap block
holding bit num, the bit offset within that block, reads the byte at bit/8 of
block blk + bmapstart and extracts bit bit%8. -/
def bmapval (img : Img) (num : Nat) : Nat :=
  let blk := num / 8 / BSIZE
  let bit := num - BSIZE * 8 * blk
  let byte := img.bytes (blk + img.bmapstart) (bit / 8)
  (byte >>> (bit % 8)) &&& 1

/-- Outcome of main's argument handling (xcheck.c lines 43-52): either the
process returned with a code after one diagnostic, or execution fell through
into the checking phase with the given diagnostics already printed. -/
inductive Entry where
  | exited : Nat → Msg → Entry
  | proceeded : List Msg → Entry
deriving DecidableEq, Repr

/-- Embedding of xcheck.c lines 43-52: wrong argument count prints the usage
line and returns 1; a fopen failure prints the invalid-image line and then
falls through (the if at line 50 has no return), so checking proceeds on the
unopened handle. -/
def mainEntry (argc : Nat) (openOk : Bool) : Entry :=
  if argc ≠ 2 then .exited 1 .usage
  else if openOk = false then .proceeded [.invalidImage]
  else .proceeded []

/-- Direct-pointer loop of process_file (xcheck.c lines 246-259).  The first
argument counts remaining iterations (NDIRECT - i), the second is the loop
index i.  Returns ok false when the loop hit a zero pointer (the C function
returns), ok true when all NDIRECT iterations ran. -/
def directLoop (img : Img) (f : Dinode) : Nat → Nat → St → Res Bool
  | 0, _, st => .ok true st
  | left + 1, i, st =>
    let bp := f.addrs i
    if bp = 0 then .ok false st
    else if check_bp img bp = false then .halt .badDirect st
    else
      let st1 := bumpB st (bp - nmeta img)
      if st1.brefs (bp - nmeta img) > 1 then .halt .dupAddress st1
      else directLoop img f left (i + 1) st1

/-- Indirect-entry loop of process_file (xcheck.c lines 276-289), over the
uint array of the indirect block ibp. -/
def indLoop (img : Img) (ibp : Nat) : Nat → Nat → St → Res Unit
  | 0, _, st => .ok () st
  | left + 1, i, st =>
    let bpi := img.ind ibp i
    if bpi = 0 then .ok () st
    else if check_bp img bpi = false then .halt .badIndirect st
    else
      let st1 := bumpB st (bpi - nmeta img)
      if st1.brefs (bpi - nmeta img) > 1 then .halt .dupIndirect st1
      else indLoop img ibp left (i + 1) st1

/-- process_file (xcheck.c lines 238-290).  After a completed direct loop the
C variable bp still holds the last direct address f->addrs[NDIRECT-1], and
line 265 range-checks that stale bp rather than the indirect pointer ibp.
Line 270's duplicate test on the indirect block prints without exiting, so it
is modelled as a log append. -/
def process_file (img : Img) (f : Dinode) (st : St) : Res Unit :=
  if f.type ≠ T_FILE ∧ f.type ≠ T_DEV then .halt .appFile st
  else
    match directLoop img f NDIRECT 0 st with
    | .halt m s => .halt m s
    | .fuelOut s => .fuelOut s
    | .ok false s => .ok () s
    | .ok true s =>
      let bp := f.addrs (NDIRECT - 1)
      let ibp := f.addrs NDIRECT
      if ibp = 0 then .ok () s
      else if check_bp img bp = false then .halt .badDirect s
      else
        let s1 := bumpB s (ibp - nmeta img)
        let s2 := if s1.brefs (ibp - nmeta img) > 1 then pushPrinted s1 .dupAddress else s1
        indLoop img ibp NINDIRECT 0 s2

/-- Directory-entry loop of recurse_dir (xcheck.c lines 205-230).  The walk
argument is the recursive call used for subdirectories; first says whether
this is the directory's first data block (ghost information for the count
records); bp is the block being scanned; the countdown and j realise the
while (bdeidx < maxidx) loop. -/
def entryLoopF (img : Img) (walk : Dinode → Nat → St → Res Unit)
    (first : Bool) (bp : Nat) : Nat → Nat → St → Res Unit
  | 0, _, st => .ok () st
  | left + 1, j, st =>
    let de := img.dirent bp j
    if de.inum = 0 then .ok () st
    else
      let cur := img.inode de.inum
      if cur.type < T_DIR ∨ cur.type > T_DEV then .halt .invalidType st
      else
        let st1 := bumpI st first j de.inum
        if cur.type = T_DIR then
          if st1.irefs de.inum > 1 then .halt .dupDir st1
          else
            match walk cur de.inum st1 with
            | .ok _ s => entryLoopF img walk first bp left (j + 1) s
            | .halt m s => .halt m s
            | .fuelOut s => .fuelOut s
        else
          match process_file img cur st1 with
          | .ok _ s => entryLoopF img walk first bp left (j + 1) s
          | .halt m s => .halt m s
          | .fuelOut s => .fuelOut s

/-- Direct-block loop of recurse_dir (xcheck.c lines 176-231).  For each
nonzero direct pointer: range check, unconditional ++block_refs (line 187, no
duplicate test), the dot and dot-dot validation on the first block only
(lines 191-204, after which scanning starts at slot 2; later blocks start at
slot 0), then the entry loop. -/
def blockLoopF (img : Img) (walk : Dinode → Nat → St → Res Unit)
    (dir : Dinode) (inum : Nat) : Nat → Nat → St → Res Unit
  | 0, _, st => .ok () st
  | left + 1, i, st =>
    let bp := dir.addrs i
    if bp = 0 then .ok () st
    else if check_bp img bp = false then .halt .badDirect st
    else
      let st1 := bumpB st (bp - nmeta img)
      if i = 0 then
        let d0 := img.dirent bp 0
        if d0.name ≠ "." ∨ d0.inum ≠ inum then .halt .notFmt st1
        else
          let d1 := img.dirent bp 1
          if d1.name ≠ ".." then .halt .notFmt st1
          else
            match entryLoopF img walk true bp (DPB - 2) 2 st1 with
            | .ok _ s => blockLoopF img walk dir inum left (i + 1) s
            | .halt m s => .halt m s
            | .fuelOut s => .fuelOut s
      else
        match entryLoopF img walk false bp DPB 0 st1 with
        | .ok _ s => blockLoopF img walk dir inum left (i + 1) s
        | .halt m s => .halt m s
        | .fuelOut s => .fuelOut s

/-- recurse_dir (xcheck.c lines 164-236): type check, then the block loop;
recursion into subdirectories happens inside the entry loop and consumes one
unit of fuel per nesting level.  The ghost entered trace records each
invocation that passes the type check. -/
def recurse_dir (img : Img) : Nat → Dinode → Nat → St → Res Unit
  | 0, _, _, st => .fuelOut st
  | fuel + 1, dir, inum, st =>
    if dir.type ≠ T_DIR then .halt .appDir st
    else blockLoopF img (recurse_dir img fuel) dir inum NDIRECT 0 (pushEntered st inum)

/-- Per-inode bitmap consultation loop of the final inode scan (xcheck.c lines
130-148).  A zero direct address breaks out; each nonzero direct address i has
its bitmap bit demanded; only in the iteration i = NDIRECT - 1, i.e. after all
NDIRECT direct addresses proved nonzero, is the indirect address examined, and
its failing bitmap test (line 143) prints without exiting. -/
def blockBitLoop (img : Img) (ino : Dinode) : Nat → Nat → St → Res Unit
  | 0, _, st => .ok () st
  | left + 1, i, st =>
    if ino.addrs i = 0 then .ok () st
    else
      let st1 := recordConsult st i
      if bmapval img (ino.addrs i) = 0 then .halt .bitFree st1
      else if i = NDIRECT - 1 then
        if ino.addrs NDIRECT = 0 then .ok () st1
        else
          let st2 := recordConsult st1 NDIRECT
          if bmapval img (ino.addrs NDIRECT) = 0 then .ok () (pushPrinted st2 .bitFree)
          else .ok () st2
      else blockBitLoop img ino left (i + 1) st1

/-- Body of the final inode scan for one inode number i (xcheck.c lines
95-148): free inodes must be unreferenced; the type tag must be in range; live
inodes must be referenced; a directory may have at most one reference; the
link count must equal the computed reference count; then every declared block
address must be marked in the bitmap. -/
def inodeCheck (img : Img) (i : Nat) (st : St) : Res Unit :=
  let ino := img.inode i
  if ino.type = 0 then
    if st.irefs i ≠ 0 then .halt .freeButRef st else .ok () st
  else if ino.type < T_DIR ∨ ino.type > T_DEV then .halt .badInode st
  else if st.irefs i = 0 then .halt .notFound st
  else if ino.type = T_DIR ∧ st.irefs i > 1 then .halt .dupDir st
  else if ino.nlink ≠ st.irefs i then .halt .badRefCount st
  else blockBitLoop img ino NDIRECT 0 st

/-- Final inode scan loop, for (i = 2; i < ninodes; ++i) (xcheck.c line 94);
the countdown is ninodes - 2. -/
def inodeScan (img : Img) : Nat → Nat → St → Res Unit
  | 0, _, st => .ok () st
  | left + 1, i, st =>
    match inodeCheck img i st with
    | .ok _ s => inodeScan img left (i + 1) s
    | .halt m s => .halt m s
    | .fuelOut s => .fuelOut s

/-- Bitmap scan, for (i = nmeta; i < nblocks; ++i) (xcheck.c lines 152-158): a
bit set for a data block with zero computed references is fatal. -/
def bitmapScan (img : Img) : Nat → Nat → St → Res Unit
  | 0, _, st => .ok () st
  | left + 1, i, st =>
    if bmapval img i ≠ 0 ∧ st.brefs (i - nmeta img) = 0 then .halt .bitmapNotInUse st
    else bitmapScan img left (i + 1) st

/-- The checking phase of main after the image is open and the superblock
read (xcheck.c lines 54-161): root type check, root parent-entry check via
slot 1 of the root's first data block, the recursive traversal, the final
inode scan, then the bitmap scan; normal completion models return 0. -/
def runCheck (img : Img) (fuel : Nat) : Res Unit :=
  let root := img.inode 1
  if root.type ≠ T_DIR then .halt .noRoot initSt
  else
    let pd := img.dirent (root.addrs 0) 1
    if pd.inum ≠ 1 then .halt .noRoot initSt
    else
      match recurse_dir img fuel root 1 initSt with
      | .ok _ st1 =>
        match inodeScan img (img.ninodes - 2) 2 st1 with
        | .ok _ st2 =>
          match bitmapScan img (img.nblocks - nmeta img) (nmeta img) st2 with
          | .ok _ st3 => .ok () st3
          | .halt m s => .halt m s
          | .fuelOut s => .fuelOut s
        | .halt m s => .halt m s
        | .fuelOut s => .fuelOut s
      | .halt m s => .halt m s
      | .fuelOut s => .fuelOut s

/-- Inode record with all fields zero, the content of unused inode slots. -/
def freeNode : Dinode := ⟨0, 0, fun _ => 0⟩

/-- Terminator directory entry (inode number zero). -/
def deEnd : Dirent := ⟨0, ""⟩

/-- Image on which a file inode (2) and a directory inode (3) both list data
block 6 among their addresses: the root's block 4 names file f = inode 2
(whose single direct address is block 6) and then directory a = inode 3
(whose single data block is also block 6, holding valid dot and dot-dot
entries; a file's content bytes are unconstrained, so a real image can hold
exactly these bytes).  Geometry: ninodes 6 and nlog 0 give iblocks 1,
bmapblocks 1, nmeta 4; bitmap bits 4 and 6 are set (byte 80 = 0b01010000). -/
def imgC4 : Img where
  size := 10
  nblocks := 10
  ninodes := 6
  nlog := 0
  bmapstart := 3
  inode := fun i =>
    if i = 1 then ⟨T_DIR, 1, fun j => if j = 0 then 4 else 0⟩
    else if i = 2 then ⟨T_FILE, 1, fun j => if j = 0 then 6 else 0⟩
    else if i = 3 then ⟨T_DIR, 1, fun j => if j = 0 then 6 else 0⟩
    else freeNode
  dirent := fun b s =>
    if b = 4 then
      if s = 0 then ⟨1, "."⟩ else if s = 1 then ⟨1, ".."⟩
      else if s = 2 then ⟨2, "f"⟩ else if s = 3 then ⟨3, "a"⟩ else deEnd
    else if b = 6 then
      if s = 0 then ⟨3, "."⟩ else if s = 1 then ⟨1, ".."⟩ else deEnd
    else deEnd
  ind := fun _ _ => 0
  bytes := fun b o => if b = 3 ∧ o = 0 then 80 else 0

/-- Image whose single file inode has twelve distinct valid direct addresses
5..16 and an indirect pointer equal to block 16, the last direct address: the
indirect block is therefore claimed twice.  All bits of used blocks are set
(bits 4..16: bytes 240, 255, 1).  The indirect block's entry array is all
zero. -/
def imgC1a : Img where
  size := 17
  nblocks := 17
  ninodes := 6
  nlog := 0
  bmapstart := 3
  inode := fun i =>
    if i = 1 then ⟨T_DIR, 1, fun j => if j = 0 then 4 else 0⟩
    else if i = 2 then ⟨T_FILE, 1, fun j => if j < 12 then 5 + j else 16⟩
    else freeNode
  dirent := fun b s =>
    if b = 4 then
      if s = 0 then ⟨1, "."⟩ else if s = 1 then ⟨1, ".."⟩
      else if s = 2 then ⟨2, "f"⟩ else deEnd
    else deEnd
  ind := fun _ _ => 0
  bytes := fun b o =>
    if b = 3 then (if o = 0 then 240 else if o = 1 then 255 else if o = 2 then 1 else 0)
    else 0

/-- Image whose single file inode has twelve nonzero direct addresses 5..16
and indirect pointer 17, but the bitmap bit of block 17 is clear (bits 4..16
set, bit 17 clear).  Block 17 was nonetheless counted by the traversal, so the
final bitmap scan finds nothing amiss. -/
def imgC1b : Img where
  size := 18
  nblocks := 18
  ninodes := 6
  nlog := 0
  bmapstart := 3
  inode := fun i =>
    if i = 1 then ⟨T_DIR, 1, fun j => if j = 0 then 4 else 0⟩
    else if i = 2 then ⟨T_FILE, 1, fun j => if j < 12 then 5 + j else 17⟩
    else freeNode
  dirent := fun b s =>
    if b = 4 then
      if s = 0 then ⟨1, "."⟩ else if s = 1 then ⟨1, ".."⟩
      else if s = 2 then ⟨2, "f"⟩ else deEnd
    else deEnd
  ind := fun _ _ => 0
  bytes := fun b o =>
    if b = 3 then (if o = 0 then 240 else if o = 1 then 255 else if o = 2 then 1 else 0)
    else 0

/-- Image for the stale-bp range check: inode 2 is a file with twelve valid
direct addresses 5..16 and indirect pointer 1000, far outside the 30-block
image. -/
def imgC2 : Img where
  size := 30
  nblocks := 30
  ninodes := 6
  nlog := 0
  bmapstart := 3
  inode := fun i =>
    if i = 2 then ⟨T_FILE, 1, fun j => if j < 12 then 5 + j else 1000⟩
    else freeNode
  dirent := fun _ _ => deEnd
  ind := fun _ _ => 0
  bytes := fun _ _ => 0

/-- Superblock-only image whose inode count 8 is an exact multiple of IPB and
whose size 4096 is an exact multiple of BSIZE*8. -/
def img5 : Img where
  size := 4096
  nblocks := 10
  ninodes := 8
  nlog := 0
  bmapstart := 3
  inode := fun _ => freeNode
  dirent := fun _ _ => deEnd
  ind := fun _ _ => 0
  bytes := fun _ _ => 0

/-- Superblock-only image with inode count 5 and size 10, neither divisible by
its divisor. -/
def img5w : Img where
  size := 10
  nblocks := 10
  ninodes := 5
  nlog := 0
  bmapstart := 3
  inode := fun _ => freeNode
  dirent := fun _ _ => deEnd
  ind := fun _ _ => 0
  bytes := fun _ _ => 0

/-- Image whose superblock declares zero inodes yet which the checker accepts:
a consistent root-only tree (root's data block 4 holds dot, dot-dot and a
terminator; bitmap bit 4 set, byte 16). -/
def img6 : Img where
  size := 6
  nblocks := 6
  ninodes := 0
  nlog := 0
  bmapstart := 3
  inode := fun i =>
    if i = 1 then ⟨T_DIR, 1, fun j => if j = 0 then 4 else 0⟩
    else freeNode
  dirent := fun b s =>
    if b = 4 then
      if s = 0 then ⟨1, "."⟩ else if s = 1 then ⟨1, ".."⟩ else deEnd
    else deEnd
  ind := fun _ _ => 0
  bytes := fun b o => if b = 3 ∧ o = 0 then 16 else 0

/-- Image with a directory cycle back to the root: the root (block 4) names
directory a = inode 3 (block 5), and block 5's third entry names inode 1
again, so the traversal re-enters the root before the duplicate check fires on
the root's child. -/
def img7 : Img where
  size := 10
  nblocks := 10
  ninodes := 6
  nlog := 0
  bmapstart := 3
  inode := fun i =>
    if i = 1 then ⟨T_DIR, 1, fun j => if j = 0 then 4 else 0⟩
    else if i = 3 then ⟨T_DIR, 1, fun j => if j = 0 then 5 else 0⟩
    else freeNode
  dirent := fun b s =>
    if b = 4 then
      if s = 0 then ⟨1, "."⟩ else if s = 1 then ⟨1, ".."⟩
      else if s = 2 then ⟨3, "a"⟩ else deEnd
    else if b = 5 then
      if s = 0 then ⟨3, "."⟩ else if s = 1 then ⟨1, ".."⟩
      else if s = 2 then ⟨1, "r"⟩ else deEnd
    else deEnd
  ind := fun _ _ => 0
  bytes := fun b o => if b = 3 ∧ o = 0 then 48 else 0

/-- File inode with a duplicated first pair of direct addresses, used to
instantiate the duplicate-use theorem: addresses 5, 5, then zeroes. -/
def fDup : Dinode := ⟨T_FILE, 1, fun j => if j ≤ 1 then 5 else 0⟩

/-- Image providing geometry for fDup: nmeta 4, 10 blocks. -/
def imgDup : Img where
  size := 10
  nblocks := 10
  ninodes := 6
  nlog := 0
  bmapstart := 3
  inode := fun _ => freeNode
  dirent := fun _ _ => deEnd
  ind := fun _ _ => 0
  bytes := fun _ _ => 0

/-- File inode whose single direct address is block 5, used to instantiate the
already-claimed-block theorem. -/
def fOne : Dinode := ⟨T_FILE, 1, fun j => if j = 0 then 5 else 0⟩

/-- Pointwise order on the inode reference counters of two states. -/
def IrefsLE (s t : St) : Prop := ∀ a, s.irefs a ≤ t.irefs a

/-- Number of ghost count records naming inode number x. -/
def countRec (x : Nat) (l : List (Bool × Nat × Nat)) : Nat :=
  (l.filter (fun q => q.2.2 == x)).length

/-- Number of inode numbers below N whose reference counter is still zero;
the termination measure of the directory traversal. -/
def zCount (N : Nat) (st : St) : Nat :=
  (List.range N).countP (fun i => st.irefs i == 0)

/-- Conditional unit credit between two states: 1 exactly when the first
state's counter at x is still zero while the second state's is positive, i.e.
when the run between them can have entered directory x for the first time. -/
def condC (x : Nat) (s t : St) : Nat :=
  if s.irefs x = 0 ∧ 1 ≤ t.irefs x then 1 else 0

/-- Appending an element distinct from a leaves its count unchanged. -/
theorem count_snoc_ne (l : List Nat) (a b : Nat) (h : b ≠ a) :
    (l ++ [b]).count a = l.count a := by
  rw [List.count_append]
  have hz : ([b] : List Nat).count a = 0 :=
    List.count_eq_zero.mpr (fun hm => h (List.mem_singleton.mp hm).symm)
  omega

/-- Appending an element adds one to its count and nothing to others. -/
theorem count_snoc (l : List Nat) (a b : Nat) :
    (l ++ [b]).count a = l.count a + (if a = b then 1 else 0) := by
  by_cases h : a = b
  · subst h; rw [List.count_append]; simp
  · rw [count_snoc_ne l a b (fun e => h e.symm), if_neg h]; omega

/-- State of a normal completion. -/
theorem stOf_ok {α : Type} (a : α) (s : St) : stOf (Res.ok a s) = s := rfl

/-- State of a halt. -/
theorem stOf_halt {α : Type} (m : Msg) (s : St) : stOf (Res.halt m s : Res α) = s := rfl

/-- State of a fuel exhaustion. -/
theorem stOf_fuelOut {α : Type} (s : St) : stOf (Res.fuelOut s : Res α) = s := rfl

/-- C8.  The bitmap lookup bmapval returns exactly bit b mod 8 of byte
floor(b/8) of the bitmap region that starts at the superblock's declared
bitmap start block: the byte consulted lives at offset (b/8) mod BSIZE of
block bmapstart + (b/8)/BSIZE, and the extracted value is that byte's bit
b mod 8 in LSB-first order, stated both as a shift-and-mask identity and via
Nat.testBit. -/
theorem claim_C8 (img : Img) (num : Nat) :
    bmapval img num
      = ((img.bytes (img.bmapstart + num / 8 / BSIZE) (num / 8 % BSIZE)) >>> (num % 8)) &&& 1
    ∧ (bmapval img num = 1
        ↔ Nat.testBit (img.bytes (img.bmapstart + num / 8 / BSIZE) (num / 8 % BSIZE))
            (num % 8)) := by
  have hbsize : BSIZE = 512 := rfl
  have hdd : num / 8 / BSIZE = num / 4096 := by rw [hbsize]; omega
  have e1 : num / 8 / BSIZE + img.bmapstart = img.bmapstart + num / 8 / BSIZE :=
    Nat.add_comm _ _
  have e2 : (num - BSIZE * 8 * (num / 8 / BSIZE)) / 8 = num / 8 % BSIZE := by
    rw [hbsize] at *; omega
  have e3 : (num - BSIZE * 8 * (num / 8 / BSIZE)) % 8 = num % 8 := by
    rw [hbsize] at *; omega
  have hb : bmapval img num
      = ((img.bytes (img.bmapstart + num / 8 / BSIZE) (num / 8 % BSIZE)) >>> (num % 8)) &&& 1 := by
    simp only [bmapval]
    rw [e1, e2, e3]
  refine ⟨hb, ?_⟩
  rw [hb]
  rw [Nat.testBit_to_div_mod, ← Nat.shiftRight_eq_div_pow]
  rw [Nat.and_one_is_mod]
  simp only [decide_eq_true_eq]

/-- C3.  Embedding of main's invocation handling at the two failing inputs: a
wrong argument count exits with code 1 after the usage line, but an image file
that cannot be opened only prints its diagnostic and then falls through into
the checking phase, because the if at xcheck.c line 50 lacks a return. -/
theorem claim_C3 :
    mainEntry 1 true = Entry.exited 1 Msg.usage
    ∧ mainEntry 3 true = Entry.exited 1 Msg.usage
    ∧ mainEntry 2 false = Entry.proceeded [Msg.invalidImage] := by
  exact ⟨rfl, rfl, rfl⟩

/-- C5, counterexample.  On the superblock of img5, whose inode count 8 is an
exact multiple of IPB and whose size 4096 is an exact multiple of BSIZE*8, the
code computes 2 inode-table blocks and 2 bitmap blocks while the claimed
ceilings are 1 and 1. -/
theorem claim_C5_cex :
    iblocks img5 = 2 ∧ (img5.ninodes + (IPB - 1)) / IPB = 1
    ∧ bmapblocks img5 = 2 ∧ (img5.size + (BSIZE * 8 - 1)) / (BSIZE * 8) = 1 := by
  decide

/-- C5, amended.  The layout calculation computes iblocks = ninodes / IPB + 1
and bmapblocks = size / (BSIZE*8) + 1 — floor plus one, which agrees with the
ceiling exactly when the divisor does not divide evenly — and the
metadata-block count is 2 + nlog + iblocks + bmapblocks. -/
theorem claim_C5 (img : Img) :
    iblocks img = img.ninodes / IPB + 1
    ∧ bmapblocks img = img.size / (BSIZE * 8) + 1
    ∧ nmeta img = 2 + img.nlog + iblocks img + bmapblocks img
    ∧ (img.ninodes % IPB ≠ 0 → iblocks img = (img.ninodes + (IPB - 1)) / IPB)
    ∧ (img.size % (BSIZE * 8) ≠ 0 →
        bmapblocks img = (img.size + (BSIZE * 8 - 1)) / (BSIZE * 8)) := by
  refine ⟨rfl, rfl, rfl, ?_, ?_⟩
  · intro h
    simp only [iblocks, IPB] at *
    omega
  · intro h
    simp only [bmapblocks, BSIZE] at *
    omega

/-- C5, witness.  The amended theorem applied to the superblock of img5w,
whose counts are not divisible, where floor-plus-one and the ceiling agree. -/
theorem claim_C5_w :
    iblocks img5w = (img5w.ninodes + (IPB - 1)) / IPB
    ∧ bmapblocks img5w = (img5w.size + (BSIZE * 8 - 1)) / (BSIZE * 8) :=
  ⟨(claim_C5 img5w).2.2.2.1 (by decide), (claim_C5 img5w).2.2.2.2 (by decide)⟩

/-- C1.  Two violations that are reported but do not terminate the run: on
imgC1a the duplicate claim of the indirect block itself (xcheck.c line 270
prints without exiting) and on imgC1b the clear bitmap bit of the file's
indirect address in the final inode scan (line 143 prints without exiting);
in both cases the whole check still completes normally, i.e. exits 0, with
the diagnostic in the log. -/
theorem claim_C1 :
    isOk0 (runCheck imgC1a 5) = true ∧ printedOf (runCheck imgC1a 5) = [Msg.dupAddress]
    ∧ isOk0 (runCheck imgC1b 5) = true ∧ printedOf (runCheck imgC1b 5) = [Msg.bitFree] := by
  decide

/-- C2.  On imgC2 the file inode's indirect pointer 1000 is outside the data
region — check_bp rejects it — yet process_file raises no bad-address error
and completes normally, because line 265 range-checks the stale direct-loop
variable bp instead of the indirect pointer. -/
theorem claim_C2 :
    check_bp imgC2 ((imgC2.inode 2).addrs NDIRECT) = false
    ∧ isOk0 (process_file imgC2 (imgC2.inode 2) initSt) = true
    ∧ printedOf (process_file imgC2 (imgC2.inode 2) initSt) = [] := by
  decide

/-- C4, counterexample.  On imgC4 data block 6 appears in the address lists of
two different inodes — file inode 2 and directory inode 3 — yet the whole
check completes normally with exit 0 and an empty diagnostic log, because the
directory walker increments block_refs without any duplicate test (xcheck.c
line 187). -/
theorem claim_C4_cex :
    (imgC4.inode 2).addrs 0 = 6 ∧ (imgC4.inode 3).addrs 0 = 6
    ∧ isOk0 (runCheck imgC4 5) = true ∧ printedOf (runCheck imgC4 5) = [] := by
  decide

/-- C6, counterexample.  The superblock of img6 declares zero inodes, yet the
checker performs no superblock validation: the run proceeds through the root
lookup, traversal and both scans and exits 0 with no diagnostic of any kind,
refuting the claimed fail-fast layout error. -/
theorem claim_C6_cex :
    img6.ninodes = 0 ∧ isOk0 (runCheck img6 2) = true ∧ printedOf (runCheck img6 2) = [] := by
  decide

/-- C6, amended.  The checker computes the layout from a zero-inode superblock
without complaint (one inode-table block, from 0 / IPB + 1) and the final
inode scan then simply iterates over no inodes; no layout diagnostic exists
anywhere in the program. -/
theorem claim_C6 (img : Img) (st : St) (h : img.ninodes = 0) :
    iblocks img = 1 ∧ inodeScan img (img.ninodes - 2) 2 st = Res.ok () st := by
  constructor
  · simp [iblocks, h, IPB]
  · rw [h]; rfl

/-- C6, witness.  The amended theorem applied to img6 and the initial state. -/
theorem claim_C6_w :
    iblocks img6 = 1 ∧ inodeScan img6 (img6.ninodes - 2) 2 initSt = Res.ok () initSt :=
  claim_C6 img6 initSt rfl

/-- C7, counterexample.  On img7, whose directory a (inode 3) holds an entry
naming the root again, the traversal enters directory inode 1 twice — the
ghost trace of recurse_dir invocations is 1, 3, 1 — refuting the claim that
the traversal never enters the same directory inode twice (the run then halts
on the duplicate check at the root's child, before a third entry). -/
theorem claim_C7_cex :
    enteredOf (runCheck img7 10) = [1, 3, 1]
    ∧ (enteredOf (runCheck img7 10)).count 1 = 2 := by
  decide

/-- Consultation trace of the final scan's per-inode loop: when some direct
slot in the remaining range holds a zero address, no slot-NDIRECT record is
ever added. -/
theorem blockBitLoop_count12 (img : Img) (ino : Dinode) :
    ∀ (left i : Nat) (st : St),
      (∃ j, i ≤ j ∧ j < i + left ∧ j < NDIRECT ∧ ino.addrs j = 0) →
      (stOf (blockBitLoop img ino left i st)).consulted.count NDIRECT
        = st.consulted.count NDIRECT := by
  intro left
  induction left with
  | zero =>
    intro i st h
    obtain ⟨j, hij, hjl, _, _⟩ := h
    omega
  | succ n ih =>
    intro i st h
    obtain ⟨j, hij, hjl, hjN, hz⟩ := h
    by_cases h0 : ino.addrs i = 0
    · simp [blockBitLoop, h0, stOf]
    · have hji : i ≠ j := fun e => h0 (e ▸ hz)
      have hiN : i < NDIRECT - 1 := by omega
      have hcons : (recordConsult st i).consulted.count NDIRECT
          = st.consulted.count NDIRECT := by
        simp only [recordConsult]
        exact count_snoc_ne _ _ _ (by omega)
      by_cases hb : bmapval img (ino.addrs i) = 0
      · simp [blockBitLoop, h0, hb, stOf, recordConsult] at *
        omega
      · have hne : ¬ (i = NDIRECT - 1) := by omega
        have hstep : blockBitLoop img ino (n+1) i st
            = blockBitLoop img ino n (i+1) (recordConsult st i) := by
          simp [blockBitLoop, h0, hb, hne]
        rw [hstep, ih (i+1) (recordConsult st i) ⟨j, by omega, by omega, hjN, hz⟩, hcons]

/-- C9.  In the final inode scan, an inode that has a zero direct address
never has its indirect address's bitmap bit examined: the per-inode check adds
no slot-NDIRECT entry to the ghost consultation trace (a fortiori this holds
for live inodes, for which the claim states it). -/
theorem claim_C9 (img : Img) (i : Nat) (st : St)
    (h : ∃ j, j < NDIRECT ∧ (img.inode i).addrs j = 0) :
    (stOf (inodeCheck img i st)).consulted.count NDIRECT
      = st.consulted.count NDIRECT := by
  obtain ⟨j, hj, hz⟩ := h
  have hbb := blockBitLoop_count12 img (img.inode i) NDIRECT 0 st
    ⟨j, Nat.zero_le _, by omega, hj, hz⟩
  simp only [inodeCheck]
  split_ifs <;> first | rfl | exact hbb

/-- C9, witness.  File inode 2 of imgC4 has a zero direct address at slot 1,
and its per-inode check consults no slot-NDIRECT bitmap bit. -/
theorem claim_C9_w :
    (stOf (inodeCheck imgC4 2 initSt)).consulted.count NDIRECT
      = initSt.consulted.count NDIRECT :=
  claim_C9 imgC4 2 initSt ⟨1, by decide, by decide⟩

/-- Incrementing one block counter never decreases any block counter. -/
theorem bumpB_brefs_le (st : St) (i j : Nat) : st.brefs j ≤ (bumpB st i).brefs j := by
  simp only [bumpB, upd]
  by_cases h : j = i
  · subst h; simp
  · simp [h]

/-- The incremented block counter reads back as one more. -/
theorem bumpB_brefs_self (st : St) (i : Nat) : (bumpB st i).brefs i = st.brefs i + 1 := by
  simp [bumpB, upd]

/-- Already-claimed direct address: if position k of the remaining range has
all addresses up to it nonzero and in range and the counter of address k is
already at least one, the direct loop halts with the duplicate diagnostic. -/
theorem directLoop_dup_already (img : Img) (f : Dinode) :
    ∀ (left i k : Nat) (st : St), i ≤ k → k < i + left →
      (∀ m, i ≤ m → m ≤ k → f.addrs m ≠ 0 ∧ check_bp img (f.addrs m) = true) →
      1 ≤ st.brefs (f.addrs k - nmeta img) →
      isDupHalt (directLoop img f left i st) = true := by
  intro left
  induction left with
  | zero => intro i k st hik hkl _ _; omega
  | succ n ih =>
    intro i k st hik hkl hall hpre
    obtain ⟨hnz, hcb⟩ := hall i le_rfl hik
    by_cases hd : (bumpB st (f.addrs i - nmeta img)).brefs (f.addrs i - nmeta img) > 1
    · simp [directLoop, hnz, hcb, hd, isDupHalt]
    · rcases Nat.eq_or_lt_of_le hik with he | hlt
      · exfalso
        apply hd
        rw [← he] at hpre
        rw [bumpB_brefs_self]
        omega
      · have hstep : directLoop img f (n+1) i st
            = directLoop img f n (i+1) (bumpB st (f.addrs i - nmeta img)) := by
          simp [directLoop, hnz, hcb, hd]
        rw [hstep]
        refine ih (i+1) k _ hlt (by omega) (fun m h1 h2 => hall m (by omega) h2) ?_
        exact le_trans hpre (bumpB_brefs_le st _ _)

/-- Duplicate within the list: if positions j < k of the remaining range carry
the same nonzero in-range address (all addresses up to k nonzero and in
range), the direct loop halts with the duplicate diagnostic. -/
theorem directLoop_dup_within (img : Img) (f : Dinode) :
    ∀ (left i j k : Nat) (st : St), i ≤ j → j < k → k < i + left →
      (∀ m, i ≤ m → m ≤ k → f.addrs m ≠ 0 ∧ check_bp img (f.addrs m) = true) →
      f.addrs j = f.addrs k →
      isDupHalt (directLoop img f left i st) = true := by
  intro left
  induction left with
  | zero => intro i j k st hij hjk hkl _ _; omega
  | succ n ih =>
    intro i j k st hij hjk hkl hall heq
    obtain ⟨hnz, hcb⟩ := hall i le_rfl (by omega)
    by_cases hd : (bumpB st (f.addrs i - nmeta img)).brefs (f.addrs i - nmeta img) > 1
    · simp [directLoop, hnz, hcb, hd, isDupHalt]
    · have hstep : directLoop img f (n+1) i st
          = directLoop img f n (i+1) (bumpB st (f.addrs i - nmeta img)) := by
        simp [directLoop, hnz, hcb, hd]
      rw [hstep]
      rcases Nat.eq_or_lt_of_le hij with he | hlt
      · refine directLoop_dup_already img f n (i+1) k _ (by omega) (by omega)
          (fun m h1 h2 => hall m (by omega) h2) ?_
        rw [← heq, ← he, bumpB_brefs_self]
        omega
      · exact ih (i+1) j k _ hlt hjk (by omega) (fun m h1 h2 => hall m (by omega) h2) heq

/-- The duplicate-halt test depends only on the diagnostic carried. -/
theorem isDupHalt_halt {α : Type} (m : Msg) (s : St) :
    isDupHalt (Res.halt m s : Res α) = decide (m = Msg.dupAddress) := by
  cases m <;> rfl

/-- A duplicate halt of the direct loop propagates through process_file. -/
theorem process_file_dup (img : Img) (f : Dinode) (st : St)
    (ht : f.type = T_FILE ∨ f.type = T_DEV)
    (h : isDupHalt (directLoop img f NDIRECT 0 st) = true) :
    isDupHalt (process_file img f st) = true := by
  have ht' : ¬ (f.type ≠ T_FILE ∧ f.type ≠ T_DEV) := by
    rcases ht with h1 | h1 <;> simp [h1]
  simp only [process_file, if_neg ht']
  rcases hr : directLoop img f NDIRECT 0 st with ⟨b, s⟩ | ⟨m, s⟩ | s
  · rw [hr] at h; simp [isDupHalt] at h
  · rw [hr] at h
    rw [isDupHalt_halt] at h
    simpa [isDupHalt_halt] using h
  · rw [hr] at h; simp [isDupHalt] at h

/-- C4, amended.  The file-block walker does report duplicates it can see:
for a file or device inode, (i) if the direct-address list repeats the same
nonzero in-range address at two positions, process_file halts with the
duplicate-use diagnostic, and (ii) if some direct address in the processed
range already carries a reference count of at least one — e.g. the block was
claimed earlier by another file — process_file halts likewise.  (A duplicate
whose second claimant is a directory's data-block pointer is not reported at
all, as the counterexample shows.) -/
theorem claim_C4 :
    (∀ (img : Img) (f : Dinode) (st : St) (j k : Nat),
        (f.type = T_FILE ∨ f.type = T_DEV) → j < k → k < NDIRECT →
        (∀ m, m ≤ k → f.addrs m ≠ 0 ∧ check_bp img (f.addrs m) = true) →
        f.addrs j = f.addrs k →
        isDupHalt (process_file img f st) = true)
    ∧ (∀ (img : Img) (f : Dinode) (st : St) (k : Nat),
        (f.type = T_FILE ∨ f.type = T_DEV) → k < NDIRECT →
        (∀ m, m ≤ k → f.addrs m ≠ 0 ∧ check_bp img (f.addrs m) = true) →
        1 ≤ st.brefs (f.addrs k - nmeta img) →
        isDupHalt (process_file img f st) = true) := by
  constructor
  · intro img f st j k ht hjk hk hall heq
    exact process_file_dup img f st ht
      (directLoop_dup_within img f NDIRECT 0 j k st (Nat.zero_le _) hjk (by omega)
        (fun m _ h2 => hall m h2) heq)
  · intro img f st k ht hk hall hpre
    exact process_file_dup img f st ht
      (directLoop_dup_already img f NDIRECT 0 k st (Nat.zero_le _) (by omega)
        (fun m _ h2 => hall m h2) hpre)

/-- C4, witness.  fDup repeats address 5 at slots 0 and 1, so its walk halts
with the duplicate diagnostic; fOne's single address 5 is already counted once
in the starting state, so its walk halts likewise. -/
theorem claim_C4_w :
    isDupHalt (process_file imgDup fDup initSt) = true
    ∧ isDupHalt (process_file imgDup fOne (bumpB initSt 1)) = true := by
  constructor
  · refine claim_C4.1 imgDup fDup initSt 0 1 (Or.inl rfl) (by decide) (by decide) ?_ (by decide)
    intro m hm
    interval_cases m <;> exact ⟨by decide, by decide⟩
  · refine claim_C4.2 imgDup fOne (bumpB initSt 1) 0 (Or.inl rfl) (by decide) ?_ (by decide)
    intro m hm
    interval_cases m <;> exact ⟨by decide, by decide⟩

/-- The inode-counter increment reads back as one more at its index. -/
theorem bumpI_irefs_self (st : St) (first : Bool) (slot n : Nat) :
    (bumpI st first slot n).irefs n = st.irefs n + 1 := by
  simp [bumpI, upd]

/-- The inode-counter increment leaves other indices unchanged. -/
theorem bumpI_irefs_other (st : St) (first : Bool) (slot n a : Nat) (h : a ≠ n) :
    (bumpI st first slot n).irefs a = st.irefs a := by
  simp [bumpI, upd, h]

/-- The inode-counter increment never decreases any counter. -/
theorem bumpI_irefs_le (st : St) (first : Bool) (slot n : Nat) :
    IrefsLE st (bumpI st first slot n) := by
  intro a
  by_cases h : a = n
  · subst h; rw [bumpI_irefs_self]; omega
  · rw [bumpI_irefs_other _ _ _ _ _ h]

/-- Reflexivity of the pointwise counter order. -/
theorem irefsLE_refl (s : St) : IrefsLE s s := fun _ => le_rfl

/-- Transitivity of the pointwise counter order. -/
theorem irefsLE_trans {s t u : St} (h1 : IrefsLE s t) (h2 : IrefsLE t u) : IrefsLE s u :=
  fun a => le_trans (h1 a) (h2 a)

/-- The direct loop of process_file changes neither the inode counters nor any
ghost trace, and never runs out of fuel. -/
theorem dl_state (img : Img) (f : Dinode) :
    ∀ (left i : Nat) (st : St),
      (stOf (directLoop img f left i st)).irefs = st.irefs
      ∧ (stOf (directLoop img f left i st)).entered = st.entered
      ∧ (stOf (directLoop img f left i st)).counts = st.counts
      ∧ isFuelOut (directLoop img f left i st) = false := by
  intro left
  induction left with
  | zero => intro i st; exact ⟨rfl, rfl, rfl, rfl⟩
  | succ n ih =>
    intro i st
    by_cases h1 : f.addrs i = 0
    · simp [directLoop, h1, stOf, isFuelOut]
    · by_cases h2 : check_bp img (f.addrs i) = false
      · simp [directLoop, h1, h2, stOf, isFuelOut]
      · by_cases h3 : (bumpB st (f.addrs i - nmeta img)).brefs (f.addrs i - nmeta img) > 1
        · have hstep : directLoop img f (n+1) i st
              = Res.halt Msg.dupAddress (bumpB st (f.addrs i - nmeta img)) := by
            simp [directLoop, h1, h2, h3]
          rw [hstep]
          exact ⟨rfl, rfl, rfl, rfl⟩
        · have hstep : directLoop img f (n+1) i st
              = directLoop img f n (i+1) (bumpB st (f.addrs i - nmeta img)) := by
            simp [directLoop, h1, h2, h3]
          rw [hstep]
          exact ih (i+1) (bumpB st (f.addrs i - nmeta img))

/-- The indirect loop of process_file changes neither the inode counters nor
any ghost trace, and never runs out of fuel. -/
theorem il_state (img : Img) (ibp : Nat) :
    ∀ (left i : Nat) (st : St),
      (stOf (indLoop img ibp left i st)).irefs = st.irefs
      ∧ (stOf (indLoop img ibp left i st)).entered = st.entered
      ∧ (stOf (indLoop img ibp left i st)).counts = st.counts
      ∧ isFuelOut (indLoop img ibp left i st) = false := by
  intro left
  induction left with
  | zero => intro i st; exact ⟨rfl, rfl, rfl, rfl⟩
  | succ n ih =>
    intro i st
    by_cases h1 : img.ind ibp i = 0
    · simp [indLoop, h1, stOf, isFuelOut]
    · by_cases h2 : check_bp img (img.ind ibp i) = false
      · simp [indLoop, h1, h2, stOf, isFuelOut]
      · by_cases h3 : (bumpB st (img.ind ibp i - nmeta img)).brefs (img.ind ibp i - nmeta img) > 1
        · have hstep : indLoop img ibp (n+1) i st
              = Res.halt Msg.dupIndirect (bumpB st (img.ind ibp i - nmeta img)) := by
            simp [indLoop, h1, h2, h3]
          rw [hstep]
          exact ⟨rfl, rfl, rfl, rfl⟩
        · have hstep : indLoop img ibp (n+1) i st
              = indLoop img ibp n (i+1) (bumpB st (img.ind ibp i - nmeta img)) := by
            simp [indLoop, h1, h2, h3]
          rw [hstep]
          exact ih (i+1) (bumpB st (img.ind ibp i - nmeta img))

/-- process_file changes neither the inode counters nor the entered or counts
traces, and never runs out of fuel. -/
theorem pf_state (img : Img) (f : Dinode) (st : St) :
    (stOf (process_file img f st)).irefs = st.irefs
    ∧ (stOf (process_file img f st)).entered = st.entered
    ∧ (stOf (process_file img f st)).counts = st.counts
    ∧ isFuelOut (process_file img f st) = false := by
  by_cases ht : f.type ≠ T_FILE ∧ f.type ≠ T_DEV
  · simp [process_file, ht, stOf, isFuelOut]
  · obtain ⟨d1, d2, d3, d4⟩ := dl_state img f NDIRECT 0 st
    rcases hr : directLoop img f NDIRECT 0 st with ⟨b, s⟩ | ⟨m, s⟩ | s
    · rw [hr] at d1 d2 d3
      simp only [stOf] at d1 d2 d3
      cases b
      · simp [process_file, ht, hr, stOf, isFuelOut]
        exact ⟨d1, d2, d3⟩
      · by_cases hz : f.addrs NDIRECT = 0
        · simp [process_file, ht, hr, hz, stOf, isFuelOut]
          exact ⟨d1, d2, d3⟩
        · by_cases hc : check_bp img (f.addrs (NDIRECT - 1)) = false
          · simp [process_file, ht, hr, hz, hc, stOf, isFuelOut]
            exact ⟨d1, d2, d3⟩
          · by_cases hd : (bumpB s (f.addrs NDIRECT - nmeta img)).brefs
                (f.addrs NDIRECT - nmeta img) > 1
            · have hstep : process_file img f st
                  = indLoop img (f.addrs NDIRECT) NINDIRECT 0
                      (pushPrinted (bumpB s (f.addrs NDIRECT - nmeta img)) Msg.dupAddress) := by
                simp [process_file, ht, hr, hz, hc, hd]
              rw [hstep]
              obtain ⟨e1, e2, e3, e4⟩ := il_state img (f.addrs NDIRECT) NINDIRECT 0
                (pushPrinted (bumpB s (f.addrs NDIRECT - nmeta img)) Msg.dupAddress)
              refine ⟨?_, ?_, ?_, e4⟩
              · rw [e1]; exact d1
              · rw [e2]; exact d2
              · rw [e3]; exact d3
            · have hstep : process_file img f st
                  = indLoop img (f.addrs NDIRECT) NINDIRECT 0
                      (bumpB s (f.addrs NDIRECT - nmeta img)) := by
                simp [process_file, ht, hr, hz, hc, hd]
              rw [hstep]
              obtain ⟨e1, e2, e3, e4⟩ := il_state img (f.addrs NDIRECT) NINDIRECT 0
                (bumpB s (f.addrs NDIRECT - nmeta img))
              refine ⟨?_, ?_, ?_, e4⟩
              · rw [e1]; exact d1
              · rw [e2]; exact d2
              · rw [e3]; exact d3
    · rw [hr] at d1 d2 d3
      simp only [stOf] at d1 d2 d3
      simp [process_file, ht, hr, stOf, isFuelOut]
      exact ⟨d1, d2, d3⟩
    · rw [hr] at d4
      simp [isFuelOut] at d4

/-- Single-step unfolding of the entry loop in the subdirectory branch. -/
theorem entryLoopF_step_dir (img : Img) (walk : Dinode → Nat → St → Res Unit)
    (first : Bool) (bp : Nat) (n j : Nat) (st : St)
    (h1 : ¬ (img.dirent bp j).inum = 0)
    (h2 : ¬ ((img.inode (img.dirent bp j).inum).type < T_DIR
        ∨ (img.inode (img.dirent bp j).inum).type > T_DEV))
    (h3 : (img.inode (img.dirent bp j).inum).type = T_DIR)
    (h4 : ¬ (bumpI st first j (img.dirent bp j).inum).irefs (img.dirent bp j).inum > 1) :
    entryLoopF img walk first bp (n+1) j st
      = match walk (img.inode (img.dirent bp j).inum) (img.dirent bp j).inum
          (bumpI st first j (img.dirent bp j).inum) with
        | .ok _ s => entryLoopF img walk first bp n (j + 1) s
        | .halt m s => .halt m s
        | .fuelOut s => .fuelOut s := by
  simp only [entryLoopF]
  rw [if_neg h1, if_neg h2, if_pos h3, if_neg h4]

/-- Single-step unfolding of the entry loop in the file branch. -/
theorem entryLoopF_step_file (img : Img) (walk : Dinode → Nat → St → Res Unit)
    (first : Bool) (bp : Nat) (n j : Nat) (st : St)
    (h1 : ¬ (img.dirent bp j).inum = 0)
    (h2 : ¬ ((img.inode (img.dirent bp j).inum).type < T_DIR
        ∨ (img.inode (img.dirent bp j).inum).type > T_DEV))
    (h3 : ¬ (img.inode (img.dirent bp j).inum).type = T_DIR) :
    entryLoopF img walk first bp (n+1) j st
      = match process_file img (img.inode (img.dirent bp j).inum)
          (bumpI st first j (img.dirent bp j).inum) with
        | .ok _ s => entryLoopF img walk first bp n (j + 1) s
        | .halt m s => .halt m s
        | .fuelOut s => .fuelOut s := by
  simp only [entryLoopF]
  rw [if_neg h1, if_neg h2, if_neg h3]

/-- Single-step unfolding of the entry loop at the duplicate-directory halt. -/
theorem entryLoopF_step_dup (img : Img) (walk : Dinode → Nat → St → Res Unit)
    (first : Bool) (bp : Nat) (n j : Nat) (st : St)
    (h1 : ¬ (img.dirent bp j).inum = 0)
    (h2 : ¬ ((img.inode (img.dirent bp j).inum).type < T_DIR
        ∨ (img.inode (img.dirent bp j).inum).type > T_DEV))
    (h3 : (img.inode (img.dirent bp j).inum).type = T_DIR)
    (h4 : (bumpI st first j (img.dirent bp j).inum).irefs (img.dirent bp j).inum > 1) :
    entryLoopF img walk first bp (n+1) j st
      = Res.halt Msg.dupDir (bumpI st first j (img.dirent bp j).inum) := by
  simp only [entryLoopF]
  rw [if_neg h1, if_neg h2, if_pos h3, if_pos h4]

/-- Single-step unfolding of the entry loop at the terminator entry. -/
theorem entryLoopF_step_end (img : Img) (walk : Dinode → Nat → St → Res Unit)
    (first : Bool) (bp : Nat) (n j : Nat) (st : St)
    (h1 : (img.dirent bp j).inum = 0) :
    entryLoopF img walk first bp (n+1) j st = Res.ok () st := by
  simp only [entryLoopF]
  rw [if_pos h1]

/-- Single-step unfolding of the entry loop at the invalid-type halt. -/
theorem entryLoopF_step_bad (img : Img) (walk : Dinode → Nat → St → Res Unit)
    (first : Bool) (bp : Nat) (n j : Nat) (st : St)
    (h1 : ¬ (img.dirent bp j).inum = 0)
    (h2 : (img.inode (img.dirent bp j).inum).type < T_DIR
        ∨ (img.inode (img.dirent bp j).inum).type > T_DEV) :
    entryLoopF img walk first bp (n+1) j st = Res.halt Msg.invalidType st := by
  simp only [entryLoopF]
  rw [if_neg h1, if_pos h2]

/-- Single-step unfolding of the block loop at a zero pointer. -/
theorem blockLoopF_step_end (img : Img) (walk : Dinode → Nat → St → Res Unit)
    (dir : Dinode) (inum : Nat) (n i : Nat) (st : St)
    (h1 : dir.addrs i = 0) :
    blockLoopF img walk dir inum (n+1) i st = Res.ok () st := by
  simp only [blockLoopF]
  rw [if_pos h1]

/-- Single-step unfolding of the block loop at an out-of-range pointer. -/
theorem blockLoopF_step_bad (img : Img) (walk : Dinode → Nat → St → Res Unit)
    (dir : Dinode) (inum : Nat) (n i : Nat) (st : St)
    (h1 : ¬ dir.addrs i = 0) (h2 : check_bp img (dir.addrs i) = false) :
    blockLoopF img walk dir inum (n+1) i st = Res.halt Msg.badDirect st := by
  simp only [blockLoopF]
  rw [if_neg h1, if_pos h2]

/-- Single-step unfolding of the block loop on the first data block with
valid dot and dot-dot entries. -/
theorem blockLoopF_step_first (img : Img) (walk : Dinode → Nat → St → Res Unit)
    (dir : Dinode) (inum : Nat) (n i : Nat) (st : St)
    (h1 : ¬ dir.addrs i = 0) (h2 : ¬ check_bp img (dir.addrs i) = false)
    (h3 : i = 0)
    (h4 : ¬ ((img.dirent (dir.addrs i) 0).name ≠ "."
        ∨ (img.dirent (dir.addrs i) 0).inum ≠ inum))
    (h5 : ¬ (img.dirent (dir.addrs i) 1).name ≠ "..") :
    blockLoopF img walk dir inum (n+1) i st
      = match entryLoopF img walk true (dir.addrs i) (DPB - 2) 2
          (bumpB st (dir.addrs i - nmeta img)) with
        | .ok _ s => blockLoopF img walk dir inum n (i + 1) s
        | .halt m s => .halt m s
        | .fuelOut s => .fuelOut s := by
  simp only [blockLoopF]
  rw [if_neg h1, if_neg h2, if_pos h3, if_neg h4, if_neg h5]

/-- Single-step unfolding of the block loop on a malformed first block. -/
theorem blockLoopF_step_fmt (img : Img) (walk : Dinode → Nat → St → Res Unit)
    (dir : Dinode) (inum : Nat) (n i : Nat) (st : St)
    (h1 : ¬ dir.addrs i = 0) (h2 : ¬ check_bp img (dir.addrs i) = false)
    (h3 : i = 0)
    (h45 : ((img.dirent (dir.addrs i) 0).name ≠ "."
          ∨ (img.dirent (dir.addrs i) 0).inum ≠ inum)
        ∨ (¬ ((img.dirent (dir.addrs i) 0).name ≠ "."
          ∨ (img.dirent (dir.addrs i) 0).inum ≠ inum)
          ∧ (img.dirent (dir.addrs i) 1).name ≠ "..")) :
    blockLoopF img walk dir inum (n+1) i st
      = Res.halt Msg.notFmt (bumpB st (dir.addrs i - nmeta img)) := by
  simp only [blockLoopF]
  rcases h45 with h4 | ⟨h4, h5⟩
  · rw [if_neg h1, if_neg h2, if_pos h3, if_pos h4]
  · rw [if_neg h1, if_neg h2, if_pos h3, if_neg h4, if_pos h5]

/-- Single-step unfolding of the block loop on a later data block. -/
theorem blockLoopF_step_later (img : Img) (walk : Dinode → Nat → St → Res Unit)
    (dir : Dinode) (inum : Nat) (n i : Nat) (st : St)
    (h1 : ¬ dir.addrs i = 0) (h2 : ¬ check_bp img (dir.addrs i) = false)
    (h3 : ¬ i = 0) :
    blockLoopF img walk dir inum (n+1) i st
      = match entryLoopF img walk false (dir.addrs i) DPB 0
          (bumpB st (dir.addrs i - nmeta img)) with
        | .ok _ s => blockLoopF img walk dir inum n (i + 1) s
        | .halt m s => .halt m s
        | .fuelOut s => .fuelOut s := by
  simp only [blockLoopF]
  rw [if_neg h1, if_neg h2, if_neg h3]

/-- Single-step unfolding of recurse_dir past its type check. -/
theorem recurse_dir_step (img : Img) (f : Nat) (dir : Dinode) (inum : Nat) (st : St)
    (ht : ¬ dir.type ≠ T_DIR) :
    recurse_dir img (f+1) dir inum st
      = blockLoopF img (recurse_dir img f) dir inum NDIRECT 0 (pushEntered st inum) := by
  simp only [recurse_dir]
  rw [if_neg ht]

/-- Single-step unfolding of recurse_dir at its type-check failure. -/
theorem recurse_dir_step_bad (img : Img) (f : Nat) (dir : Dinode) (inum : Nat) (st : St)
    (ht : dir.type ≠ T_DIR) :
    recurse_dir img (f+1) dir inum st = Res.halt Msg.appDir st := by
  simp only [recurse_dir]
  rw [if_pos ht]

/-- The entry loop never decreases any inode counter, provided the recursive
walk it is given never decreases one. -/
theorem el_mono (img : Img) (walk : Dinode → Nat → St → Res Unit)
    (Hw : ∀ c d s, IrefsLE s (stOf (walk c d s))) (first : Bool) (bp : Nat) :
    ∀ (left j : Nat) (st : St),
      IrefsLE st (stOf (entryLoopF img walk first bp left j st)) := by
  intro left
  induction left with
  | zero => intro j st; exact irefsLE_refl st
  | succ n ih =>
    intro j st
    by_cases h1 : (img.dirent bp j).inum = 0
    · rw [entryLoopF_step_end img walk first bp n j st h1]
      exact irefsLE_refl st
    · by_cases h2 : (img.inode (img.dirent bp j).inum).type < T_DIR
          ∨ (img.inode (img.dirent bp j).inum).type > T_DEV
      · rw [entryLoopF_step_bad img walk first bp n j st h1 h2]
        exact irefsLE_refl st
      · by_cases h3 : (img.inode (img.dirent bp j).inum).type = T_DIR
        · by_cases h4 : (bumpI st first j (img.dirent bp j).inum).irefs
              (img.dirent bp j).inum > 1
          · rw [entryLoopF_step_dup img walk first bp n j st h1 h2 h3 h4]
            exact bumpI_irefs_le st first j (img.dirent bp j).inum
          · rw [entryLoopF_step_dir img walk first bp n j st h1 h2 h3 h4]
            have hw := Hw (img.inode (img.dirent bp j).inum) (img.dirent bp j).inum
              (bumpI st first j (img.dirent bp j).inum)
            have hb := bumpI_irefs_le st first j (img.dirent bp j).inum
            rcases hr : walk (img.inode (img.dirent bp j).inum) (img.dirent bp j).inum
                (bumpI st first j (img.dirent bp j).inum) with ⟨u, s⟩ | ⟨m, s⟩ | s
            all_goals rw [hr] at hw
            all_goals simp only [stOf] at hw ⊢
            · exact irefsLE_trans (irefsLE_trans hb hw) (ih (j+1) s)
            · exact irefsLE_trans hb hw
            · exact irefsLE_trans hb hw
        · rw [entryLoopF_step_file img walk first bp n j st h1 h2 h3]
          obtain ⟨p1, p2, p3, p4⟩ := pf_state img (img.inode (img.dirent bp j).inum)
            (bumpI st first j (img.dirent bp j).inum)
          rcases hr : process_file img (img.inode (img.dirent bp j).inum)
              (bumpI st first j (img.dirent bp j).inum) with ⟨u, s⟩ | ⟨m, s⟩ | s
          all_goals rw [hr] at p1 p4
          all_goals simp only [stOf] at p1 p4
          all_goals
            have hb : IrefsLE st s := by
              intro a
              rw [p1]
              exact bumpI_irefs_le st first j (img.dirent bp j).inum a
          · simp only [stOf]
            exact irefsLE_trans hb (ih (j+1) s)
          · simp only [stOf]
            exact hb
          · cases p4

/-- The block loop never decreases any inode counter, provided the recursive
walk it is given never decreases one. -/
theorem bl_mono (img : Img) (walk : Dinode → Nat → St → Res Unit)
    (Hw : ∀ c d s, IrefsLE s (stOf (walk c d s))) (dir : Dinode) (inum : Nat) :
    ∀ (left i : Nat) (st : St),
      IrefsLE st (stOf (blockLoopF img walk dir inum left i st)) := by
  intro left
  induction left with
  | zero => intro i st; exact irefsLE_refl st
  | succ n ih =>
    intro i st
    by_cases h1 : dir.addrs i = 0
    · rw [blockLoopF_step_end img walk dir inum n i st h1]
      exact irefsLE_refl st
    · by_cases h2 : check_bp img (dir.addrs i) = false
      · rw [blockLoopF_step_bad img walk dir inum n i st h1 h2]
        exact irefsLE_refl st
      · have hb : IrefsLE st (bumpB st (dir.addrs i - nmeta img)) := fun a => le_rfl
        by_cases h3 : i = 0
        · by_cases h4 : (img.dirent (dir.addrs i) 0).name ≠ "."
              ∨ (img.dirent (dir.addrs i) 0).inum ≠ inum
          · rw [blockLoopF_step_fmt img walk dir inum n i st h1 h2 h3 (Or.inl h4)]
            exact hb
          · by_cases h5 : (img.dirent (dir.addrs i) 1).name ≠ ".."
            · rw [blockLoopF_step_fmt img walk dir inum n i st h1 h2 h3 (Or.inr ⟨h4, h5⟩)]
              exact hb
            · rw [blockLoopF_step_first img walk dir inum n i st h1 h2 h3 h4 h5]
              have he := el_mono img walk Hw true (dir.addrs i) (DPB - 2) 2
                (bumpB st (dir.addrs i - nmeta img))
              rcases hr : entryLoopF img walk true (dir.addrs i) (DPB - 2) 2
                  (bumpB st (dir.addrs i - nmeta img)) with ⟨u, s⟩ | ⟨m, s⟩ | s
              all_goals rw [hr] at he
              all_goals simp only [stOf] at he ⊢
              · exact irefsLE_trans (irefsLE_trans hb he) (ih (i+1) s)
              · exact irefsLE_trans hb he
              · exact irefsLE_trans hb he
        · rw [blockLoopF_step_later img walk dir inum n i st h1 h2 h3]
          have he := el_mono img walk Hw false (dir.addrs i) DPB 0
            (bumpB st (dir.addrs i - nmeta img))
          rcases hr : entryLoopF img walk false (dir.addrs i) DPB 0
              (bumpB st (dir.addrs i - nmeta img)) with ⟨u, s⟩ | ⟨m, s⟩ | s
          all_goals rw [hr] at he
          all_goals simp only [stOf] at he ⊢
          · exact irefsLE_trans (irefsLE_trans hb he) (ih (i+1) s)
          · exact irefsLE_trans hb he
          · exact irefsLE_trans hb he

/-- The directory traversal never decreases any inode counter. -/
theorem rd_mono (img : Img) :
    ∀ (fuel : Nat) (dir : Dinode) (inum : Nat) (st : St),
      IrefsLE st (stOf (recurse_dir img fuel dir inum st)) := by
  intro fuel
  induction fuel with
  | zero => intro dir inum st; exact irefsLE_refl st
  | succ f ih =>
    intro dir inum st
    by_cases ht : dir.type ≠ T_DIR
    · rw [recurse_dir_step_bad img f dir inum st ht]
      exact irefsLE_refl st
    · rw [recurse_dir_step img f dir inum st ht]
      exact bl_mono img (recurse_dir img f) (fun c d s => ih c d s) dir inum NDIRECT 0
        (pushEntered st inum)

/-- Strict counting: a list element where q holds but p fails makes countP p
strictly smaller than countP q, given the pointwise implication p to q. -/
theorem countP_lt_of (l : List Nat) (p q : Nat → Bool)
    (himp : ∀ a ∈ l, p a = true → q a = true) (a : Nat) (ha : a ∈ l)
    (hpa : p a = false) (hqa : q a = true) :
    l.countP p < l.countP q := by
  induction l with
  | nil => cases ha
  | cons b tl ih =>
    have hmono : tl.countP p ≤ tl.countP q :=
      List.countP_mono_left (fun x hx hpx => himp x (List.mem_cons_of_mem _ hx) hpx)
    rcases List.mem_cons.mp ha with he | hm
    · subst he
      simp only [List.countP_cons, hpa, hqa]
      simp
      omega
    · have hlt := ih (fun x hx hpx => himp x (List.mem_cons_of_mem _ hx) hpx) hm
      have hbq := himp b (List.mem_cons_self _ _)
      simp only [List.countP_cons]
      cases hpb : p b <;> cases hqb : q b
      · simp
        omega
      · simp
        omega
      · rw [hpb] at hbq
        cases (hqb ▸ hbq rfl)
      · simp
        omega

/-- Pointwise larger counters leave at most as many zero counters. -/
theorem zCount_le_of_mono (N : Nat) (s t : St) (h : IrefsLE s t) :
    zCount N t ≤ zCount N s := by
  apply List.countP_mono_left
  intro a _ ha
  simp only [beq_iff_eq] at *
  have := h a
  omega

/-- States with identical counters have the same number of zero counters. -/
theorem zCount_congr (N : Nat) (s t : St) (h : s.irefs = t.irefs) :
    zCount N s = zCount N t := by
  simp [zCount, h]

/-- Incrementing a zero counter below the bound strictly shrinks the count of
zero counters. -/
theorem zCount_lt_bump (N : Nat) (st : St) (first : Bool) (slot n : Nat)
    (hz : st.irefs n = 0) (hn : n < N) :
    zCount N (bumpI st first slot n) < zCount N st := by
  apply countP_lt_of _ _ _ ?_ n (List.mem_range.mpr hn) ?_ ?_
  · intro a _ ha
    simp only [beq_iff_eq] at *
    by_cases h : a = n
    · subst h
      rw [bumpI_irefs_self] at ha
      omega
    · rwa [bumpI_irefs_other _ _ _ _ _ h] at ha
  · rw [Bool.eq_false_iff]
    simp only [ne_eq, beq_iff_eq, bumpI_irefs_self]
    omega
  · simp only [beq_iff_eq]
    exact hz

/-- The entry loop cannot run out of fuel when the walk it is given cannot on
states with fewer than F zero counters, all directory-entry inode numbers lie
below N, and the current state has at most F zero counters. -/
theorem el_nf (img : Img) (N F : Nat) (walk : Dinode → Nat → St → Res Unit)
    (Hmono : ∀ c d s, IrefsLE s (stOf (walk c d s)))
    (Hnf : ∀ c d s, zCount N s < F → isFuelOut (walk c d s) = false)
    (Hd : ∀ b s, (img.dirent b s).inum < N)
    (first : Bool) (bp : Nat) :
    ∀ (left j : Nat) (st : St), zCount N st ≤ F →
      isFuelOut (entryLoopF img walk first bp left j st) = false := by
  intro left
  induction left with
  | zero => intro j st _; rfl
  | succ n ih =>
    intro j st hF
    by_cases h1 : (img.dirent bp j).inum = 0
    · rw [entryLoopF_step_end img walk first bp n j st h1]
      rfl
    · by_cases h2 : (img.inode (img.dirent bp j).inum).type < T_DIR
          ∨ (img.inode (img.dirent bp j).inum).type > T_DEV
      · rw [entryLoopF_step_bad img walk first bp n j st h1 h2]
        rfl
      · by_cases h3 : (img.inode (img.dirent bp j).inum).type = T_DIR
        · by_cases h4 : (bumpI st first j (img.dirent bp j).inum).irefs
              (img.dirent bp j).inum > 1
          · rw [entryLoopF_step_dup img walk first bp n j st h1 h2 h3 h4]
            rfl
          · rw [entryLoopF_step_dir img walk first bp n j st h1 h2 h3 h4]
            have hz : st.irefs (img.dirent bp j).inum = 0 := by
              have hself := bumpI_irefs_self st first j (img.dirent bp j).inum
              omega
            have hlt : zCount N (bumpI st first j (img.dirent bp j).inum) < zCount N st :=
              zCount_lt_bump N st first j _ hz (Hd bp j)
            have hwnf := Hnf (img.inode (img.dirent bp j).inum) (img.dirent bp j).inum
              (bumpI st first j (img.dirent bp j).inum) (by omega)
            have hwmo := Hmono (img.inode (img.dirent bp j).inum) (img.dirent bp j).inum
              (bumpI st first j (img.dirent bp j).inum)
            rcases hr : walk (img.inode (img.dirent bp j).inum) (img.dirent bp j).inum
                (bumpI st first j (img.dirent bp j).inum) with ⟨u, s⟩ | ⟨m, s⟩ | s
            · rw [hr] at hwmo
              simp only [stOf] at hwmo
              have hle : zCount N s ≤ zCount N (bumpI st first j (img.dirent bp j).inum) :=
                zCount_le_of_mono N _ _ hwmo
              exact ih (j+1) s (by omega)
            · rfl
            · rw [hr] at hwnf
              simp [isFuelOut] at hwnf
        · rw [entryLoopF_step_file img walk first bp n j st h1 h2 h3]
          obtain ⟨p1, p2, p3, p4⟩ := pf_state img (img.inode (img.dirent bp j).inum)
            (bumpI st first j (img.dirent bp j).inum)
          rcases hr : process_file img (img.inode (img.dirent bp j).inum)
              (bumpI st first j (img.dirent bp j).inum) with ⟨u, s⟩ | ⟨m, s⟩ | s
          · rw [hr] at p1
            simp only [stOf] at p1
            have he1 : zCount N s = zCount N (bumpI st first j (img.dirent bp j).inum) :=
              zCount_congr N _ _ p1
            have he2 : zCount N (bumpI st first j (img.dirent bp j).inum) ≤ zCount N st :=
              zCount_le_of_mono N _ _ (bumpI_irefs_le st first j (img.dirent bp j).inum)
            exact ih (j+1) s (by omega)
          · rfl
          · rw [hr] at p4
            cases p4

/-- The block loop cannot run out of fuel under the same hypotheses. -/
theorem bl_nf (img : Img) (N F : Nat) (walk : Dinode → Nat → St → Res Unit)
    (Hmono : ∀ c d s, IrefsLE s (stOf (walk c d s)))
    (Hnf : ∀ c d s, zCount N s < F → isFuelOut (walk c d s) = false)
    (Hd : ∀ b s, (img.dirent b s).inum < N)
    (dir : Dinode) (inum : Nat) :
    ∀ (left i : Nat) (st : St), zCount N st ≤ F →
      isFuelOut (blockLoopF img walk dir inum left i st) = false := by
  intro left
  induction left with
  | zero => intro i st _; rfl
  | succ n ih =>
    intro i st hF
    by_cases h1 : dir.addrs i = 0
    · rw [blockLoopF_step_end img walk dir inum n i st h1]
      rfl
    · by_cases h2 : check_bp img (dir.addrs i) = false
      · rw [blockLoopF_step_bad img walk dir inum n i st h1 h2]
        rfl
      · have hzb : zCount N (bumpB st (dir.addrs i - nmeta img)) = zCount N st := rfl
        by_cases h3 : i = 0
        · by_cases h4 : (img.dirent (dir.addrs i) 0).name ≠ "."
              ∨ (img.dirent (dir.addrs i) 0).inum ≠ inum
          · rw [blockLoopF_step_fmt img walk dir inum n i st h1 h2 h3 (Or.inl h4)]
            rfl
          · by_cases h5 : (img.dirent (dir.addrs i) 1).name ≠ ".."
            · rw [blockLoopF_step_fmt img walk dir inum n i st h1 h2 h3 (Or.inr ⟨h4, h5⟩)]
              rfl
            · rw [blockLoopF_step_first img walk dir inum n i st h1 h2 h3 h4 h5]
              have hen := el_nf img N F walk Hmono Hnf Hd true (dir.addrs i) (DPB - 2) 2
                (bumpB st (dir.addrs i - nmeta img)) (by omega)
              have hem := el_mono img walk Hmono true (dir.addrs i) (DPB - 2) 2
                (bumpB st (dir.addrs i - nmeta img))
              rcases hr : entryLoopF img walk true (dir.addrs i) (DPB - 2) 2
                  (bumpB st (dir.addrs i - nmeta img)) with ⟨u, s⟩ | ⟨m, s⟩ | s
              · rw [hr] at hem
                simp only [stOf] at hem
                have hle : zCount N s ≤ zCount N (bumpB st (dir.addrs i - nmeta img)) :=
                  zCount_le_of_mono N _ _ hem
                exact ih (i+1) s (by omega)
              · rfl
              · rw [hr] at hen
                cases hen
        · rw [blockLoopF_step_later img walk dir inum n i st h1 h2 h3]
          have hen := el_nf img N F walk Hmono Hnf Hd false (dir.addrs i) DPB 0
            (bumpB st (dir.addrs i - nmeta img)) (by omega)
          have hem := el_mono img walk Hmono false (dir.addrs i) DPB 0
            (bumpB st (dir.addrs i - nmeta img))
          rcases hr : entryLoopF img walk false (dir.addrs i) DPB 0
              (bumpB st (dir.addrs i - nmeta img)) with ⟨u, s⟩ | ⟨m, s⟩ | s
          · rw [hr] at hem
            simp only [stOf] at hem
            have hle : zCount N s ≤ zCount N (bumpB st (dir.addrs i - nmeta img)) :=
              zCount_le_of_mono N _ _ hem
            exact ih (i+1) s (by omega)
          · rfl
          · rw [hr] at hen
            cases hen

/-- Fuel sufficiency for the traversal: when every directory-entry inode
number lies below N, fuel exceeding the number of zero counters below N never
runs out. -/
theorem rd_nf (img : Img) (N : Nat) (Hd : ∀ b s, (img.dirent b s).inum < N) :
    ∀ (F : Nat) (st : St) (dir : Dinode) (inum : Nat), zCount N st < F →
      isFuelOut (recurse_dir img F dir inum st) = false := by
  intro F
  induction F with
  | zero => intro st dir inum h; omega
  | succ f ih =>
    intro st dir inum h
    by_cases ht : dir.type ≠ T_DIR
    · rw [recurse_dir_step_bad img f dir inum st ht]
      rfl
    · rw [recurse_dir_step img f dir inum st ht]
      have hz : zCount N (pushEntered st inum) = zCount N st := rfl
      exact bl_nf img N f (recurse_dir img f) (fun c d s => rd_mono img f c d s)
        (fun c d s hs => ih s c d hs) Hd dir inum NDIRECT 0 (pushEntered st inum) (by omega)

/-- The conditional credit is at most one. -/
theorem condC_le_one (x : Nat) (s t : St) : condC x s t ≤ 1 := by
  unfold condC
  split <;> omega

/-- Chaining credits along a monotone run never exceeds the end-to-end
credit. -/
theorem condC_chain {x : Nat} {s u t : St} (hsu : IrefsLE s u) (hut : IrefsLE u t) :
    condC x s u + condC x u t ≤ condC x s t := by
  have a1 := hsu x
  have a2 := hut x
  unfold condC
  by_cases hs : s.irefs x = 0
  · by_cases hu : u.irefs x = 0
    · by_cases ht1 : 1 ≤ t.irefs x
      · simp [hs, hu, ht1]
      · simp [hs, hu, ht1]
    · have ht1 : 1 ≤ t.irefs x := by omega
      simp [hs, hu, ht1, Nat.one_le_iff_ne_zero]
  · have hu : ¬ u.irefs x = 0 := by omega
    simp [hs, hu]

/-- A pointwise-larger left state yields at most the same credit. -/
theorem condC_left_anti {x : Nat} {u s : St} (h : IrefsLE u s) (t : St) :
    condC x s t ≤ condC x u t := by
  have := h x
  unfold condC
  by_cases hs : s.irefs x = 0
  · have hu : u.irefs x = 0 := by omega
    simp [hs, hu]
  · simp [hs]

/-- The credit only depends on the left state's counter at x. -/
theorem condC_congr_left {x : Nat} {s u : St} (h : s.irefs x = u.irefs x) (t : St) :
    condC x s t = condC x u t := by
  unfold condC
  rw [h]

/-- Entered-trace counting for the entry loop: the number of new occurrences
of inode x in the entered trace is bounded by the conditional credit, provided
the walk satisfies the recursion-level bound. -/
theorem el_cnt (img : Img) (x : Nat) (walk : Dinode → Nat → St → Res Unit)
    (Hmono : ∀ c d s, IrefsLE s (stOf (walk c d s)))
    (Hcnt : ∀ c d s, (stOf (walk c d s)).entered.count x
        ≤ s.entered.count x + (if x = d then 1 else 0) + condC x s (stOf (walk c d s)))
    (first : Bool) (bp : Nat) :
    ∀ (left j : Nat) (st : St),
      (stOf (entryLoopF img walk first bp left j st)).entered.count x
        ≤ st.entered.count x + condC x st (stOf (entryLoopF img walk first bp left j st)) := by
  intro left
  induction left with
  | zero =>
    intro j st
    show st.entered.count x
      ≤ st.entered.count x + condC x st (stOf (entryLoopF img walk first bp 0 j st))
    omega
  | succ n ih =>
    intro j st
    by_cases h1 : (img.dirent bp j).inum = 0
    · rw [entryLoopF_step_end img walk first bp n j st h1]
      show st.entered.count x ≤ st.entered.count x + condC x st (stOf (Res.ok () st : Res Unit))
      omega
    · by_cases h2 : (img.inode (img.dirent bp j).inum).type < T_DIR
          ∨ (img.inode (img.dirent bp j).inum).type > T_DEV
      · rw [entryLoopF_step_bad img walk first bp n j st h1 h2]
        show st.entered.count x
          ≤ st.entered.count x + condC x st (stOf (Res.halt Msg.invalidType st : Res Unit))
        omega
      · by_cases h3 : (img.inode (img.dirent bp j).inum).type = T_DIR
        · by_cases h4 : (bumpI st first j (img.dirent bp j).inum).irefs
              (img.dirent bp j).inum > 1
          · rw [entryLoopF_step_dup img walk first bp n j st h1 h2 h3 h4]
            have ebe : (bumpI st first j (img.dirent bp j).inum).entered.count x
                = st.entered.count x := rfl
            show (bumpI st first j (img.dirent bp j).inum).entered.count x
              ≤ st.entered.count x
                + condC x st (stOf (Res.halt Msg.dupDir
                    (bumpI st first j (img.dirent bp j).inum) : Res Unit))
            omega
          · rw [entryLoopF_step_dir img walk first bp n j st h1 h2 h3 h4]
            have hwmo := Hmono (img.inode (img.dirent bp j).inum) (img.dirent bp j).inum
              (bumpI st first j (img.dirent bp j).inum)
            have hcw := Hcnt (img.inode (img.dirent bp j).inum) (img.dirent bp j).inum
              (bumpI st first j (img.dirent bp j).inum)
            have hble := bumpI_irefs_le st first j (img.dirent bp j).inum
            have ebe : (bumpI st first j (img.dirent bp j).inum).entered.count x
                = st.entered.count x := rfl
            rcases hr : walk (img.inode (img.dirent bp j).inum) (img.dirent bp j).inum
                (bumpI st first j (img.dirent bp j).inum) with ⟨u, s⟩ | ⟨m, s⟩ | s
            all_goals rw [hr] at hwmo hcw
            all_goals simp only [stOf_ok, stOf_halt, stOf_fuelOut] at hwmo hcw
            · show (stOf (entryLoopF img walk first bp n (j+1) s)).entered.count x
                ≤ st.entered.count x
                  + condC x st (stOf (entryLoopF img walk first bp n (j+1) s))
              have htail := ih (j+1) s
              have hsmo := el_mono img walk Hmono first bp n (j+1) s
              by_cases hx : x = (img.dirent bp j).inum
              · have h6 : (bumpI st first j (img.dirent bp j).inum).irefs x
                    = st.irefs x + 1 := by
                  rw [hx]
                  exact bumpI_irefs_self st first j _
                have h8 := bumpI_irefs_self st first j (img.dirent bp j).inum
                have hz0 : st.irefs (img.dirent bp j).inum = 0 := by omega
                have hz : st.irefs x = 0 := by rw [hx]; exact hz0
                have hs1 : 1 ≤ s.irefs x := by
                  have h5 := hwmo x
                  omega
                have hc1 : condC x (bumpI st first j (img.dirent bp j).inum) s = 0 := by
                  unfold condC
                  rw [if_neg]
                  intro hco
                  omega
                have hc2 : condC x s (stOf (entryLoopF img walk first bp n (j+1) s)) = 0 := by
                  unfold condC
                  rw [if_neg]
                  intro hco
                  omega
                have hc3 : condC x st (stOf (entryLoopF img walk first bp n (j+1) s)) = 1 := by
                  unfold condC
                  rw [if_pos]
                  refine ⟨hz, ?_⟩
                  have := hsmo x
                  omega
                have hd1 : (if x = (img.dirent bp j).inum then 1 else 0) = 1 := if_pos hx
                omega
              · have hd0 : (if x = (img.dirent bp j).inum then 1 else 0) = 0 := if_neg hx
                have hst1 : (bumpI st first j (img.dirent bp j).inum).irefs x = st.irefs x :=
                  bumpI_irefs_other st first j _ x hx
                have hcc : condC x (bumpI st first j (img.dirent bp j).inum) s
                    = condC x st s := condC_congr_left hst1 s
                have hchain := condC_chain (x := x) (irefsLE_trans hble hwmo)
                  (el_mono img walk Hmono first bp n (j+1) s)
                omega
            · show s.entered.count x ≤ st.entered.count x + condC x st s
              by_cases hx : x = (img.dirent bp j).inum
              · have h6 : (bumpI st first j (img.dirent bp j).inum).irefs x
                    = st.irefs x + 1 := by
                  rw [hx]
                  exact bumpI_irefs_self st first j _
                have h8 := bumpI_irefs_self st first j (img.dirent bp j).inum
                have hz0 : st.irefs (img.dirent bp j).inum = 0 := by omega
                have hz : st.irefs x = 0 := by rw [hx]; exact hz0
                have hs1 : 1 ≤ s.irefs x := by
                  have h5 := hwmo x
                  omega
                have hc1 : condC x (bumpI st first j (img.dirent bp j).inum) s = 0 := by
                  unfold condC
                  rw [if_neg]
                  intro hco
                  omega
                have hc3 : condC x st s = 1 := by
                  unfold condC
                  rw [if_pos]
                  exact ⟨hz, hs1⟩
                have hd1 : (if x = (img.dirent bp j).inum then 1 else 0) = 1 := if_pos hx
                omega
              · have hd0 : (if x = (img.dirent bp j).inum then 1 else 0) = 0 := if_neg hx
                have hst1 : (bumpI st first j (img.dirent bp j).inum).irefs x = st.irefs x :=
                  bumpI_irefs_other st first j _ x hx
                have hcc : condC x (bumpI st first j (img.dirent bp j).inum) s
                    = condC x st s := condC_congr_left hst1 s
                have hle1 := condC_le_one x st s
                omega
            · show s.entered.count x ≤ st.entered.count x + condC x st s
              by_cases hx : x = (img.dirent bp j).inum
              · have h6 : (bumpI st first j (img.dirent bp j).inum).irefs x
                    = st.irefs x + 1 := by
                  rw [hx]
                  exact bumpI_irefs_self st first j _
                have h8 := bumpI_irefs_self st first j (img.dirent bp j).inum
                have hz0 : st.irefs (img.dirent bp j).inum = 0 := by omega
                have hz : st.irefs x = 0 := by rw [hx]; exact hz0
                have hs1 : 1 ≤ s.irefs x := by
                  have h5 := hwmo x
                  omega
                have hc1 : condC x (bumpI st first j (img.dirent bp j).inum) s = 0 := by
                  unfold condC
                  rw [if_neg]
                  intro hco
                  omega
                have hc3 : condC x st s = 1 := by
                  unfold condC
                  rw [if_pos]
                  exact ⟨hz, hs1⟩
                have hd1 : (if x = (img.dirent bp j).inum then 1 else 0) = 1 := if_pos hx
                omega
              · have hd0 : (if x = (img.dirent bp j).inum then 1 else 0) = 0 := if_neg hx
                have hst1 : (bumpI st first j (img.dirent bp j).inum).irefs x = st.irefs x :=
                  bumpI_irefs_other st first j _ x hx
                have hcc : condC x (bumpI st first j (img.dirent bp j).inum) s
                    = condC x st s := condC_congr_left hst1 s
                have hle1 := condC_le_one x st s
                omega
        · rw [entryLoopF_step_file img walk first bp n j st h1 h2 h3]
          obtain ⟨p1, p2, p3, p4⟩ := pf_state img (img.inode (img.dirent bp j).inum)
            (bumpI st first j (img.dirent bp j).inum)
          rcases hr : process_file img (img.inode (img.dirent bp j).inum)
              (bumpI st first j (img.dirent bp j).inum) with ⟨u, s⟩ | ⟨m, s⟩ | s
          all_goals rw [hr] at p1 p2 p4
          all_goals simp only [stOf_ok, stOf_halt, stOf_fuelOut] at p1 p2 p4
          · show (stOf (entryLoopF img walk first bp n (j+1) s)).entered.count x
              ≤ st.entered.count x
                + condC x st (stOf (entryLoopF img walk first bp n (j+1) s))
            have ebe : (bumpI st first j (img.dirent bp j).inum).entered.count x
                = st.entered.count x := rfl
            have hse : s.entered.count x = st.entered.count x := by rw [p2, ebe]
            have htail := ih (j+1) s
            have hsle : IrefsLE st s := by
              intro a
              rw [p1]
              exact bumpI_irefs_le st first j (img.dirent bp j).inum a
            have hanti := condC_left_anti (x := x) hsle
              (stOf (entryLoopF img walk first bp n (j+1) s))
            omega
          · show s.entered.count x ≤ st.entered.count x + condC x st s
            have ebe : (bumpI st first j (img.dirent bp j).inum).entered.count x
                = st.entered.count x := rfl
            have hse : s.entered.count x = st.entered.count x := by rw [p2, ebe]
            omega
          · cases p4

/-- Entered-trace counting for the block loop, under the same recursion-level
bound on the walk. -/
theorem bl_cnt (img : Img) (x : Nat) (walk : Dinode → Nat → St → Res Unit)
    (Hmono : ∀ c d s, IrefsLE s (stOf (walk c d s)))
    (Hcnt : ∀ c d s, (stOf (walk c d s)).entered.count x
        ≤ s.entered.count x + (if x = d then 1 else 0) + condC x s (stOf (walk c d s)))
    (dir : Dinode) (inum : Nat) :
    ∀ (left i : Nat) (st : St),
      (stOf (blockLoopF img walk dir inum left i st)).entered.count x
        ≤ st.entered.count x
          + condC x st (stOf (blockLoopF img walk dir inum left i st)) := by
  intro left
  induction left with
  | zero =>
    intro i st
    show st.entered.count x
      ≤ st.entered.count x + condC x st (stOf (blockLoopF img walk dir inum 0 i st))
    omega
  | succ n ih =>
    intro i st
    by_cases h1 : dir.addrs i = 0
    · rw [blockLoopF_step_end img walk dir inum n i st h1]
      show st.entered.count x ≤ st.entered.count x + condC x st (stOf (Res.ok () st : Res Unit))
      omega
    · by_cases h2 : check_bp img (dir.addrs i) = false
      · rw [blockLoopF_step_bad img walk dir inum n i st h1 h2]
        show st.entered.count x
          ≤ st.entered.count x + condC x st (stOf (Res.halt Msg.badDirect st : Res Unit))
        omega
      · have hfirst : ∀ (fb : Bool) (lf j0 : Nat),
            (stOf (match entryLoopF img walk fb (dir.addrs i) lf j0
                (bumpB st (dir.addrs i - nmeta img)) with
              | .ok _ s => blockLoopF img walk dir inum n (i + 1) s
              | .halt m s => Res.halt m s
              | .fuelOut s => Res.fuelOut s)).entered.count x
            ≤ st.entered.count x
              + condC x st (stOf (match entryLoopF img walk fb (dir.addrs i) lf j0
                  (bumpB st (dir.addrs i - nmeta img)) with
                | .ok _ s => blockLoopF img walk dir inum n (i + 1) s
                | .halt m s => Res.halt m s
                | .fuelOut s => Res.fuelOut s)) := by
          intro fb lf j0
          have hel := el_cnt img x walk Hmono Hcnt fb (dir.addrs i) lf j0
            (bumpB st (dir.addrs i - nmeta img))
          have hem := el_mono img walk Hmono fb (dir.addrs i) lf j0
            (bumpB st (dir.addrs i - nmeta img))
          rcases hr : entryLoopF img walk fb (dir.addrs i) lf j0
              (bumpB st (dir.addrs i - nmeta img)) with ⟨u, s⟩ | ⟨m, s⟩ | s
          all_goals rw [hr] at hel hem
          all_goals simp only [stOf_ok, stOf_halt, stOf_fuelOut] at hel hem
          · show (stOf (blockLoopF img walk dir inum n (i+1) s)).entered.count x
              ≤ st.entered.count x
                + condC x st (stOf (blockLoopF img walk dir inum n (i+1) s))
            have ebe : (bumpB st (dir.addrs i - nmeta img)).entered.count x
                = st.entered.count x := rfl
            have hcb : condC x (bumpB st (dir.addrs i - nmeta img)) s = condC x st s :=
              condC_congr_left rfl s
            have htail := ih (i+1) s
            have hstle : IrefsLE st s := fun a => hem a
            have hblm := bl_mono img walk Hmono dir inum n (i+1) s
            have hchain := condC_chain (x := x) hstle hblm
            omega
          · show s.entered.count x ≤ st.entered.count x + condC x st s
            have ebe : (bumpB st (dir.addrs i - nmeta img)).entered.count x
                = st.entered.count x := rfl
            have hcb : condC x (bumpB st (dir.addrs i - nmeta img)) s = condC x st s :=
              condC_congr_left rfl s
            omega
          · show s.entered.count x ≤ st.entered.count x + condC x st s
            have ebe : (bumpB st (dir.addrs i - nmeta img)).entered.count x
                = st.entered.count x := rfl
            have hcb : condC x (bumpB st (dir.addrs i - nmeta img)) s = condC x st s :=
              condC_congr_left rfl s
            omega
        by_cases h3 : i = 0
        · by_cases h4 : (img.dirent (dir.addrs i) 0).name ≠ "."
              ∨ (img.dirent (dir.addrs i) 0).inum ≠ inum
          · rw [blockLoopF_step_fmt img walk dir inum n i st h1 h2 h3 (Or.inl h4)]
            show (bumpB st (dir.addrs i - nmeta img)).entered.count x
              ≤ st.entered.count x
                + condC x st (stOf (Res.halt Msg.notFmt
                    (bumpB st (dir.addrs i - nmeta img)) : Res Unit))
            have ebe : (bumpB st (dir.addrs i - nmeta img)).entered.count x
                = st.entered.count x := rfl
            omega
          · by_cases h5 : (img.dirent (dir.addrs i) 1).name ≠ ".."
            · rw [blockLoopF_step_fmt img walk dir inum n i st h1 h2 h3 (Or.inr ⟨h4, h5⟩)]
              show (bumpB st (dir.addrs i - nmeta img)).entered.count x
                ≤ st.entered.count x
                  + condC x st (stOf (Res.halt Msg.notFmt
                      (bumpB st (dir.addrs i - nmeta img)) : Res Unit))
              have ebe : (bumpB st (dir.addrs i - nmeta img)).entered.count x
                  = st.entered.count x := rfl
              omega
            · rw [blockLoopF_step_first img walk dir inum n i st h1 h2 h3 h4 h5]
              exact hfirst true (DPB - 2) 2
        · rw [blockLoopF_step_later img walk dir inum n i st h1 h2 h3]
          exact hfirst false DPB 0

/-- Entered-trace counting for the traversal: the new occurrences of inode x
are bounded by one for the traversal root plus the conditional credit. -/
theorem rd_cnt (img : Img) (x : Nat) :
    ∀ (fuel : Nat) (dir : Dinode) (inum : Nat) (st : St),
      (stOf (recurse_dir img fuel dir inum st)).entered.count x
        ≤ st.entered.count x + (if x = inum then 1 else 0)
          + condC x st (stOf (recurse_dir img fuel dir inum st)) := by
  intro fuel
  induction fuel with
  | zero =>
    intro dir inum st
    show st.entered.count x ≤ st.entered.count x + (if x = inum then 1 else 0)
      + condC x st (stOf (recurse_dir img 0 dir inum st))
    omega
  | succ f ih =>
    intro dir inum st
    by_cases ht : dir.type ≠ T_DIR
    · rw [recurse_dir_step_bad img f dir inum st ht]
      show st.entered.count x ≤ st.entered.count x + (if x = inum then 1 else 0)
        + condC x st (stOf (Res.halt Msg.appDir st : Res Unit))
      omega
    · rw [recurse_dir_step img f dir inum st ht]
      have hbl := bl_cnt img x (recurse_dir img f) (fun c d s => rd_mono img f c d s)
        (fun c d s => ih c d s) dir inum NDIRECT 0 (pushEntered st inum)
      have hpe : (pushEntered st inum).entered.count x
          = st.entered.count x + (if x = inum then 1 else 0) := count_snoc st.entered x inum
      have hcc : condC x (pushEntered st inum)
          (stOf (blockLoopF img (recurse_dir img f) dir inum NDIRECT 0 (pushEntered st inum)))
          = condC x st
            (stOf (blockLoopF img (recurse_dir img f) dir inum NDIRECT 0
              (pushEntered st inum))) :=
        condC_congr_left rfl _
      omega

/-- C7, amended.  With all directory-entry inode numbers below N, the
traversal from any state terminates — fuel one more than the number of
still-unreferenced inode numbers below N is never exhausted — and a directory
inode other than the traversal root that starts unreferenced is entered at
most once (the root itself can be entered a second time through an entry
naming it, as the counterexample shows; the duplicate-link report then fires
before any third entry). -/
theorem claim_C7 (img : Img) (N : Nat) (dir : Dinode) (inum : Nat) (st : St)
    (Hd : ∀ b s, (img.dirent b s).inum < N) :
    isFuelOut (recurse_dir img (zCount N st + 1) dir inum st) = false
    ∧ ∀ x, x ≠ inum → st.irefs x = 0 → st.entered.count x = 0 →
        (enteredOf (recurse_dir img (zCount N st + 1) dir inum st)).count x ≤ 1 := by
  constructor
  · exact rd_nf img N Hd (zCount N st + 1) st dir inum (by omega)
  · intro x hx hz hc
    have h := rd_cnt img x (zCount N st + 1) dir inum st
    have h1 : (if x = inum then 1 else 0) = 0 := if_neg hx
    have h2 := condC_le_one x st (stOf (recurse_dir img (zCount N st + 1) dir inum st))
    show (stOf (recurse_dir img (zCount N st + 1) dir inum st)).entered.count x ≤ 1
    omega

/-- C7, witness.  On img7 every directory-entry inode number is below 4; the
traversal from the initial state with the computed fuel bound does not run out
of fuel, and directory inode 3 is entered at most once. -/
theorem claim_C7_w :
    isFuelOut (recurse_dir img7 (zCount 4 initSt + 1) (img7.inode 1) 1 initSt) = false
    ∧ (enteredOf (recurse_dir img7 (zCount 4 initSt + 1) (img7.inode 1) 1 initSt)).count 3
        ≤ 1 := by
  have Hd : ∀ b s, (img7.dirent b s).inum < 4 := by
    intro b s
    simp only [img7]
    split_ifs <;> decide
  exact ⟨(claim_C7 img7 4 (img7.inode 1) 1 initSt Hd).1,
         (claim_C7 img7 4 (img7.inode 1) 1 initSt Hd).2 3 (by decide) (by decide) (by decide)⟩

/-- Record counting over an appended ghost count record. -/
theorem countRec_snoc (x : Nat) (l : List (Bool × Nat × Nat)) (b : Bool) (sl n : Nat) :
    countRec x (l ++ [(b, sl, n)]) = countRec x l + (if n = x then 1 else 0) := by
  unfold countRec
  rw [List.filter_append]
  by_cases h : n = x
  · simp [h]
  · simp [h]

/-- Membership in an appended singleton. -/
theorem mem_snoc_elim {p q : Bool × Nat × Nat} {l : List (Bool × Nat × Nat)}
    (h : p ∈ l ++ [q]) : p ∈ l ∨ p = q := by
  rcases List.mem_append.mp h with h1 | h1
  · exact Or.inl h1
  · exact Or.inr (List.mem_singleton.mp h1)

/-- Balance of one counter increment against its ghost record. -/
theorem bumpI_balance (st : St) (first : Bool) (slot n x : Nat) :
    (bumpI st first slot n).irefs x + countRec x st.counts
      = st.irefs x + countRec x (bumpI st first slot n).counts := by
  have hc : countRec x (bumpI st first slot n).counts
      = countRec x st.counts + (if n = x then 1 else 0) :=
    countRec_snoc x st.counts first slot n
  by_cases hx : x = n
  · subst hx
    rw [bumpI_irefs_self, hc, if_pos rfl]
    omega
  · rw [bumpI_irefs_other _ _ _ _ _ hx, hc, if_neg (fun e => hx e.symm)]
    omega

/-- Every ghost count record added by the entry loop carries a slot below DPB
that is at least 2 on a first block, provided the walk adds only such records
and the loop's position is consistent (countdown plus slot within DPB, slot at
least 2 on a first block). -/
theorem el_mem (img : Img) (walk : Dinode → Nat → St → Res Unit)
    (Hmem : ∀ c d s p, p ∈ (stOf (walk c d s)).counts →
        p ∈ s.counts ∨ ((p.1 = true → 2 ≤ p.2.1) ∧ p.2.1 < DPB))
    (first : Bool) (bp : Nat) :
    ∀ (left j : Nat) (st : St), left + j ≤ DPB → (first = true → 2 ≤ j) →
      ∀ p, p ∈ (stOf (entryLoopF img walk first bp left j st)).counts →
        p ∈ st.counts ∨ ((p.1 = true → 2 ≤ p.2.1) ∧ p.2.1 < DPB) := by
  intro left
  induction left with
  | zero =>
    intro j st _ _ p hp
    exact Or.inl hp
  | succ n ih =>
    intro j st hjd hfj p hp
    by_cases h1 : (img.dirent bp j).inum = 0
    · rw [entryLoopF_step_end img walk first bp n j st h1] at hp
      exact Or.inl hp
    · by_cases h2 : (img.inode (img.dirent bp j).inum).type < T_DIR
          ∨ (img.inode (img.dirent bp j).inum).type > T_DEV
      · rw [entryLoopF_step_bad img walk first bp n j st h1 h2] at hp
        exact Or.inl hp
      · have hnew : p = (first, j, (img.dirent bp j).inum)
            → (p.1 = true → 2 ≤ p.2.1) ∧ p.2.1 < DPB := by
          intro he
          subst he
          refine ⟨fun hf => hfj hf, ?_⟩
          show j < DPB
          omega
        have hsplit : p ∈ (bumpI st first j (img.dirent bp j).inum).counts
            → p ∈ st.counts ∨ ((p.1 = true → 2 ≤ p.2.1) ∧ p.2.1 < DPB) := by
          intro hm
          rcases mem_snoc_elim hm with hm1 | hm1
          · exact Or.inl hm1
          · exact Or.inr (hnew hm1)
        by_cases h3 : (img.inode (img.dirent bp j).inum).type = T_DIR
        · by_cases h4 : (bumpI st first j (img.dirent bp j).inum).irefs
              (img.dirent bp j).inum > 1
          · rw [entryLoopF_step_dup img walk first bp n j st h1 h2 h3 h4] at hp
            exact hsplit hp
          · rw [entryLoopF_step_dir img walk first bp n j st h1 h2 h3 h4] at hp
            rcases hr : walk (img.inode (img.dirent bp j).inum) (img.dirent bp j).inum
                (bumpI st first j (img.dirent bp j).inum) with ⟨u, s⟩ | ⟨m, s⟩ | s
            all_goals rw [hr] at hp
            all_goals
              have hwm := Hmem (img.inode (img.dirent bp j).inum) (img.dirent bp j).inum
                (bumpI st first j (img.dirent bp j).inum)
            all_goals rw [hr] at hwm
            all_goals simp only [stOf_ok, stOf_halt, stOf_fuelOut] at hwm
            · have hp2 : p ∈ (stOf (entryLoopF img walk first bp n (j+1) s)).counts := hp
              rcases ih (j+1) s (by omega) (fun hf => by have := hfj hf; omega) p hp2
                with hs1 | hs1
              · rcases hwm p hs1 with hs2 | hs2
                · exact hsplit hs2
                · exact Or.inr hs2
              · exact Or.inr hs1
            · have hp2 : p ∈ s.counts := hp
              rcases hwm p hp2 with hs2 | hs2
              · exact hsplit hs2
              · exact Or.inr hs2
            · have hp2 : p ∈ s.counts := hp
              rcases hwm p hp2 with hs2 | hs2
              · exact hsplit hs2
              · exact Or.inr hs2
        · rw [entryLoopF_step_file img walk first bp n j st h1 h2 h3] at hp
          obtain ⟨p1, p2, p3, p4⟩ := pf_state img (img.inode (img.dirent bp j).inum)
            (bumpI st first j (img.dirent bp j).inum)
          rcases hr : process_file img (img.inode (img.dirent bp j).inum)
              (bumpI st first j (img.dirent bp j).inum) with ⟨u, s⟩ | ⟨m, s⟩ | s
          all_goals rw [hr] at hp p3 p4
          all_goals simp only [stOf_ok, stOf_halt, stOf_fuelOut] at p3 p4
          · have hp2 : p ∈ (stOf (entryLoopF img walk first bp n (j+1) s)).counts := hp
            rcases ih (j+1) s (by omega) (fun hf => by have := hfj hf; omega) p hp2
              with hs1 | hs1
            · rw [p3] at hs1
              exact hsplit hs1
            · exact Or.inr hs1
          · have hp2 : p ∈ s.counts := hp
            rw [p3] at hp2
            exact hsplit hp2
          · cases p4

/-- Every ghost count record added by the block loop carries a slot below DPB
that is at least 2 on a first block. -/
theorem bl_mem (img : Img) (walk : Dinode → Nat → St → Res Unit)
    (Hmem : ∀ c d s p, p ∈ (stOf (walk c d s)).counts →
        p ∈ s.counts ∨ ((p.1 = true → 2 ≤ p.2.1) ∧ p.2.1 < DPB))
    (dir : Dinode) (inum : Nat) :
    ∀ (left i : Nat) (st : St),
      ∀ p, p ∈ (stOf (blockLoopF img walk dir inum left i st)).counts →
        p ∈ st.counts ∨ ((p.1 = true → 2 ≤ p.2.1) ∧ p.2.1 < DPB) := by
  intro left
  induction left with
  | zero =>
    intro i st p hp
    exact Or.inl hp
  | succ n ih =>
    intro i st p hp
    by_cases h1 : dir.addrs i = 0
    · rw [blockLoopF_step_end img walk dir inum n i st h1] at hp
      exact Or.inl hp
    · by_cases h2 : check_bp img (dir.addrs i) = false
      · rw [blockLoopF_step_bad img walk dir inum n i st h1 h2] at hp
        exact Or.inl hp
      · have hloop : ∀ (fb : Bool) (lf j0 : Nat), lf + j0 ≤ DPB → (fb = true → 2 ≤ j0) →
            p ∈ (stOf (match entryLoopF img walk fb (dir.addrs i) lf j0
                (bumpB st (dir.addrs i - nmeta img)) with
              | .ok _ s => blockLoopF img walk dir inum n (i + 1) s
              | .halt m s => Res.halt m s
              | .fuelOut s => Res.fuelOut s)).counts →
            p ∈ st.counts ∨ ((p.1 = true → 2 ≤ p.2.1) ∧ p.2.1 < DPB) := by
          intro fb lf j0 hld hfb hp2
          have hem := el_mem img walk Hmem fb (dir.addrs i) lf j0
            (bumpB st (dir.addrs i - nmeta img)) hld hfb p
          rcases hr : entryLoopF img walk fb (dir.addrs i) lf j0
              (bumpB st (dir.addrs i - nmeta img)) with ⟨u, s⟩ | ⟨m, s⟩ | s
          all_goals rw [hr] at hp2 hem
          all_goals simp only [stOf_ok, stOf_halt, stOf_fuelOut] at hem
          · rcases ih (i+1) s p hp2 with hs1 | hs1
            · exact hem hs1
            · exact Or.inr hs1
          · exact hem hp2
          · exact hem hp2
        by_cases h3 : i = 0
        · by_cases h4 : (img.dirent (dir.addrs i) 0).name ≠ "."
              ∨ (img.dirent (dir.addrs i) 0).inum ≠ inum
          · rw [blockLoopF_step_fmt img walk dir inum n i st h1 h2 h3 (Or.inl h4)] at hp
            exact Or.inl hp
          · by_cases h5 : (img.dirent (dir.addrs i) 1).name ≠ ".."
            · rw [blockLoopF_step_fmt img walk dir inum n i st h1 h2 h3 (Or.inr ⟨h4, h5⟩)] at hp
              exact Or.inl hp
            · rw [blockLoopF_step_first img walk dir inum n i st h1 h2 h3 h4 h5] at hp
              exact hloop true (DPB - 2) 2 (by decide) (fun _ => by decide) hp
        · rw [blockLoopF_step_later img walk dir inum n i st h1 h2 h3] at hp
          exact hloop false DPB 0 (by decide) (fun hf => by cases hf) hp

/-- Every ghost count record added by the traversal carries a slot below DPB
that is at least 2 when it came from a directory's first data block. -/
theorem rd_mem (img : Img) :
    ∀ (fuel : Nat) (dir : Dinode) (inum : Nat) (st : St),
      ∀ p, p ∈ (stOf (recurse_dir img fuel dir inum st)).counts →
        p ∈ st.counts ∨ ((p.1 = true → 2 ≤ p.2.1) ∧ p.2.1 < DPB) := by
  intro fuel
  induction fuel with
  | zero =>
    intro dir inum st p hp
    exact Or.inl hp
  | succ f ih =>
    intro dir inum st p hp
    by_cases ht : dir.type ≠ T_DIR
    · rw [recurse_dir_step_bad img f dir inum st ht] at hp
      exact Or.inl hp
    · rw [recurse_dir_step img f dir inum st ht] at hp
      exact bl_mem img (recurse_dir img f) (fun c d s => ih c d s) dir inum NDIRECT 0
        (pushEntered st inum) p hp

/-- Accounting for the entry loop: the change in the counter of inode x
equals the number of new ghost count records naming x, provided the walk
satisfies the same balance. -/
theorem el_acc (img : Img) (x : Nat) (walk : Dinode → Nat → St → Res Unit)
    (Hacc : ∀ c d s, (stOf (walk c d s)).irefs x + countRec x s.counts
        = s.irefs x + countRec x (stOf (walk c d s)).counts)
    (first : Bool) (bp : Nat) :
    ∀ (left j : Nat) (st : St),
      (stOf (entryLoopF img walk first bp left j st)).irefs x + countRec x st.counts
        = st.irefs x + countRec x (stOf (entryLoopF img walk first bp left j st)).counts := by
  intro left
  induction left with
  | zero =>
    intro j st
    show st.irefs x + countRec x st.counts = st.irefs x + countRec x st.counts
    rfl
  | succ n ih =>
    intro j st
    by_cases h1 : (img.dirent bp j).inum = 0
    · rw [entryLoopF_step_end img walk first bp n j st h1]
      rfl
    · by_cases h2 : (img.inode (img.dirent bp j).inum).type < T_DIR
          ∨ (img.inode (img.dirent bp j).inum).type > T_DEV
      · rw [entryLoopF_step_bad img walk first bp n j st h1 h2]
        rfl
      · have hbal := bumpI_balance st first j (img.dirent bp j).inum x
        by_cases h3 : (img.inode (img.dirent bp j).inum).type = T_DIR
        · by_cases h4 : (bumpI st first j (img.dirent bp j).inum).irefs
              (img.dirent bp j).inum > 1
          · rw [entryLoopF_step_dup img walk first bp n j st h1 h2 h3 h4]
            show (bumpI st first j (img.dirent bp j).inum).irefs x + countRec x st.counts
              = st.irefs x + countRec x (bumpI st first j (img.dirent bp j).inum).counts
            omega
          · rw [entryLoopF_step_dir img walk first bp n j st h1 h2 h3 h4]
            have hwa := Hacc (img.inode (img.dirent bp j).inum) (img.dirent bp j).inum
              (bumpI st first j (img.dirent bp j).inum)
            rcases hr : walk (img.inode (img.dirent bp j).inum) (img.dirent bp j).inum
                (bumpI st first j (img.dirent bp j).inum) with ⟨u, s⟩ | ⟨m, s⟩ | s
            all_goals rw [hr] at hwa
            all_goals simp only [stOf_ok, stOf_halt, stOf_fuelOut] at hwa
            · show (stOf (entryLoopF img walk first bp n (j+1) s)).irefs x
                  + countRec x st.counts
                = st.irefs x + countRec x (stOf (entryLoopF img walk first bp n (j+1) s)).counts
              have htail := ih (j+1) s
              omega
            · show s.irefs x + countRec x st.counts = st.irefs x + countRec x s.counts
              omega
            · show s.irefs x + countRec x st.counts = st.irefs x + countRec x s.counts
              omega
        · rw [entryLoopF_step_file img walk first bp n j st h1 h2 h3]
          obtain ⟨p1, p2, p3, p4⟩ := pf_state img (img.inode (img.dirent bp j).inum)
            (bumpI st first j (img.dirent bp j).inum)
          rcases hr : process_file img (img.inode (img.dirent bp j).inum)
              (bumpI st first j (img.dirent bp j).inum) with ⟨u, s⟩ | ⟨m, s⟩ | s
          all_goals rw [hr] at p1 p3 p4
          all_goals simp only [stOf_ok, stOf_halt, stOf_fuelOut] at p1 p3 p4
          · show (stOf (entryLoopF img walk first bp n (j+1) s)).irefs x
                + countRec x st.counts
              = st.irefs x + countRec x (stOf (entryLoopF img walk first bp n (j+1) s)).counts
            have htail := ih (j+1) s
            have e1 : s.irefs x = (bumpI st first j (img.dirent bp j).inum).irefs x := by
              rw [p1]
            have e2 : countRec x s.counts
                = countRec x (bumpI st first j (img.dirent bp j).inum).counts := by
              rw [p3]
            omega
          · show s.irefs x + countRec x st.counts = st.irefs x + countRec x s.counts
            have e1 : s.irefs x = (bumpI st first j (img.dirent bp j).inum).irefs x := by
              rw [p1]
            have e2 : countRec x s.counts
                = countRec x (bumpI st first j (img.dirent bp j).inum).counts := by
              rw [p3]
            omega
          · cases p4

/-- Accounting for the block loop. -/
theorem bl_acc (img : Img) (x : Nat) (walk : Dinode → Nat → St → Res Unit)
    (Hacc : ∀ c d s, (stOf (walk c d s)).irefs x + countRec x s.counts
        = s.irefs x + countRec x (stOf (walk c d s)).counts)
    (dir : Dinode) (inum : Nat) :
    ∀ (left i : Nat) (st : St),
      (stOf (blockLoopF img walk dir inum left i st)).irefs x + countRec x st.counts
        = st.irefs x + countRec x (stOf (blockLoopF img walk dir inum left i st)).counts := by
  intro left
  induction left with
  | zero =>
    intro i st
    rfl
  | succ n ih =>
    intro i st
    by_cases h1 : dir.addrs i = 0
    · rw [blockLoopF_step_end img walk dir inum n i st h1]
      rfl
    · by_cases h2 : check_bp img (dir.addrs i) = false
      · rw [blockLoopF_step_bad img walk dir inum n i st h1 h2]
        rfl
      · have hloop : ∀ (fb : Bool) (lf j0 : Nat),
            (stOf (match entryLoopF img walk fb (dir.addrs i) lf j0
                (bumpB st (dir.addrs i - nmeta img)) with
              | .ok _ s => blockLoopF img walk dir inum n (i + 1) s
              | .halt m s => Res.halt m s
              | .fuelOut s => Res.fuelOut s)).irefs x + countRec x st.counts
            = st.irefs x
              + countRec x (stOf (match entryLoopF img walk fb (dir.addrs i) lf j0
                  (bumpB st (dir.addrs i - nmeta img)) with
                | .ok _ s => blockLoopF img walk dir inum n (i + 1) s
                | .halt m s => Res.halt m s
                | .fuelOut s => Res.fuelOut s)).counts := by
          intro fb lf j0
          have hel := el_acc img x walk Hacc fb (dir.addrs i) lf j0
            (bumpB st (dir.addrs i - nmeta img))
          have eb1 : (bumpB st (dir.addrs i - nmeta img)).irefs x = st.irefs x := rfl
          have eb2 : countRec x (bumpB st (dir.addrs i - nmeta img)).counts
              = countRec x st.counts := rfl
          rcases hr : entryLoopF img walk fb (dir.addrs i) lf j0
              (bumpB st (dir.addrs i - nmeta img)) with ⟨u, s⟩ | ⟨m, s⟩ | s
          all_goals rw [hr] at hel
          all_goals simp only [stOf_ok, stOf_halt, stOf_fuelOut] at hel
          · show (stOf (blockLoopF img walk dir inum n (i+1) s)).irefs x
                + countRec x st.counts
              = st.irefs x + countRec x (stOf (blockLoopF img walk dir inum n (i+1) s)).counts
            have htail := ih (i+1) s
            omega
          · show s.irefs x + countRec x st.counts = st.irefs x + countRec x s.counts
            omega
          · show s.irefs x + countRec x st.counts = st.irefs x + countRec x s.counts
            omega
        by_cases h3 : i = 0
        · by_cases h4 : (img.dirent (dir.addrs i) 0).name ≠ "."
              ∨ (img.dirent (dir.addrs i) 0).inum ≠ inum
          · rw [blockLoopF_step_fmt img walk dir inum n i st h1 h2 h3 (Or.inl h4)]
            rfl
          · by_cases h5 : (img.dirent (dir.addrs i) 1).name ≠ ".."
            · rw [blockLoopF_step_fmt img walk dir inum n i st h1 h2 h3 (Or.inr ⟨h4, h5⟩)]
              rfl
            · rw [blockLoopF_step_first img walk dir inum n i st h1 h2 h3 h4 h5]
              exact hloop true (DPB - 2) 2
        · rw [blockLoopF_step_later img walk dir inum n i st h1 h2 h3]
          exact hloop false DPB 0

/-- Accounting for the traversal: the counter of inode x grows by exactly the
number of new ghost count records naming x. -/
theorem rd_acc (img : Img) (x : Nat) :
    ∀ (fuel : Nat) (dir : Dinode) (inum : Nat) (st : St),
      (stOf (recurse_dir img fuel dir inum st)).irefs x + countRec x st.counts
        = st.irefs x + countRec x (stOf (recurse_dir img fuel dir inum st)).counts := by
  intro fuel
  induction fuel with
  | zero =>
    intro dir inum st
    rfl
  | succ f ih =>
    intro dir inum st
    by_cases ht : dir.type ≠ T_DIR
    · rw [recurse_dir_step_bad img f dir inum st ht]
      rfl
    · rw [recurse_dir_step img f dir inum st ht]
      exact bl_acc img x (recurse_dir img f) (fun c d s => ih c d s) dir inum NDIRECT 0
        (pushEntered st inum)

/-- C10.  Live-entry counting starts at slot 2 of a directory's first data
block and at slot 0 of subsequent blocks: (i) every ghost count record the
traversal adds — one per executed inode-counter increment — has a slot below
DPB, and a slot of at least 2 when it came from a directory's first data
block (so the dot and dot-dot slots 0 and 1 never increment the table); and
(ii) an inode's computed reference count grows by exactly the number of
counted directory entries naming it. -/
theorem claim_C10 :
    (∀ (img : Img) (fuel : Nat) (dir : Dinode) (inum : Nat) (st : St)
        (p : Bool × Nat × Nat), p ∈ (stOf (recurse_dir img fuel dir inum st)).counts →
        p ∈ st.counts ∨ ((p.1 = true → 2 ≤ p.2.1) ∧ p.2.1 < DPB))
    ∧ (∀ (img : Img) (fuel : Nat) (dir : Dinode) (inum : Nat) (st : St) (x : Nat),
        (stOf (recurse_dir img fuel dir inum st)).irefs x + countRec x st.counts
          = st.irefs x + countRec x (stOf (recurse_dir img fuel dir inum st)).counts) :=
  ⟨fun img fuel dir inum st p hp => rd_mem img fuel dir inum st p hp,
   fun img fuel dir inum st x => rd_acc img x fuel dir inum st⟩

/-- C10, witness.  On imgC4 the traversal's ghost count records are exactly
(true, 2, 2) and (true, 3, 3); the first one satisfies the slot bounds, and
inode 2's counter grew by exactly its one record. -/
theorem claim_C10_w :
    ((true, 2, 2) ∈ initSt.counts
      ∨ (((true, 2, 2) : Bool × Nat × Nat).1 = true → 2 ≤ ((true, 2, 2) : Bool × Nat × Nat).2.1)
        ∧ ((true, 2, 2) : Bool × Nat × Nat).2.1 < DPB)
    ∧ ((stOf (recurse_dir imgC4 5 (imgC4.inode 1) 1 initSt)).irefs 2 + countRec 2 initSt.counts
        = initSt.irefs 2
          + countRec 2 (stOf (recurse_dir imgC4 5 (imgC4.inode 1) 1 initSt)).counts) :=
  ⟨claim_C10.1 imgC4 5 (imgC4.inode 1) 1 initSt (true, 2, 2) (by decide),
   claim_C10.2 imgC4 5 (imgC4.inode 1) 1 initSt 2⟩

end XCheck
